import Mathlib

/-!
# Precompiled contracts of `core/vm/precompiles.go`

A shallow embedding of the block-header precompile: the selector dispatch of
`blockHeader.Run`, its nine handlers, and the backward-chained decoding of the
merged-mining trailer stored at the end of `header.Extra`; and of the HD-wallet
utilities: the selector dispatch of `hdWalletUtils` and its four handlers.

Conventions of the embedding.

* A byte is a `Fin 256`; a Go `[]byte` is a `List Byte`. Go checks the upper bound of a
  slice expression against the capacity: where an expression can reach past the length
  (the selector read `input[:4]` of the wallet dispatcher, which checks no length first)
  the bytes of the backing array beyond the length are an explicit argument `spare`;
  the other slice expressions are modelled on a slice whose capacity equals its length.
* Go `int` is the 64-bit two's-complement integer: every `+`, `-`, `*` of the source
  on `int` is followed by `wrapInt`.
* A run-time panic (slice bounds out of range, index out of range) is the value
  `none` in the helper functions and `Outcome.fault` in the handlers.
* `method.Outputs.Pack(v)` belongs to the external ABI library; a handler that
  returns it is recorded as `Outcome.pack outputs v`, the value handed to the encoder
  together with the output types of the method.
-/

namespace Precompiles

set_option maxRecDepth 8000

abbrev Byte := Fin 256

/-- The four error values declared at the top of the file. -/
inductive Error
  | errBlockHeaderInvalidInput       -- "invalid input length"
  | errBlockHeaderInvalidSignature   -- "invalid input data"
  | errBlockHeaderInvalidBlockDepth  -- "invalid block depth"
  | errBlockHeaderInvalidBlockHash   -- "invalid block hash"
  deriving DecidableEq, Repr

/-- The text of each error value, as given to `errors.New`. -/
def Error.message : Error → String
  | .errBlockHeaderInvalidInput => "invalid input length"
  | .errBlockHeaderInvalidSignature => "invalid input data"
  | .errBlockHeaderInvalidBlockDepth => "invalid block depth"
  | .errBlockHeaderInvalidBlockHash => "invalid block hash"

/-- The ABI types built with `abi.NewType`. -/
inductive AbiType
  | bytes | int256 | string | bytesArr
  deriving DecidableEq, Repr

/-- What `abi.NewMethod` keeps of a method: its name, argument types and 4-byte ID. -/
structure Method where
  name : String
  inputs : List AbiType
  outputs : List AbiType
  ID : List Byte
  deriving DecidableEq, Repr

/-- The fields of `types.Header` the handlers read; `hash` stands for `header.Hash()`. -/
structure Header where
  hash : List Byte
  coinbase : List Byte
  difficulty : Nat
  gasLimit : Nat
  gasUsed : Nat
  extra : List Byte
  deriving DecidableEq, Repr

/-- What a call of `run` or `Run` does: `pack outputs v` is `return method.Outputs.Pack(v)`,
`error e` is `return nil, e`, and `fault` is a run-time panic. -/
inductive Outcome
  | pack (outputs : List AbiType) (value : List Byte)
  | error (e : Error)
  | fault
  deriving DecidableEq, Repr

/-! ## Machine arithmetic and slices -/

/-- Two's-complement reduction of an integer to Go's 64-bit `int`. -/
def wrapInt (x : Int) : Int := (x + 2 ^ 63) % 2 ^ 64 - 2 ^ 63

def add64 (a b : Int) : Int := wrapInt (a + b)
def sub64 (a b : Int) : Int := wrapInt (a - b)
def mul64 (a b : Int) : Int := wrapInt (a * b)

/-- Go `len(data)` as an `int`. -/
def len (data : List Byte) : Int := (data.length : Int)

/-- Go `data[lo:hi]`: `none` is the out-of-range panic. -/
def slice (data : List Byte) (lo hi : Int) : Option (List Byte) :=
  if 0 ≤ lo ∧ lo ≤ hi ∧ hi ≤ len data then
    some ((data.drop lo.toNat).take (hi - lo).toNat)
  else none

/-- Little-endian value of a byte string. -/
def leValue : List Byte → Nat
  | [] => 0
  | b :: bs => b.val + 256 * leValue bs

/-- Go `binary.LittleEndian.Uint64(b)`: panics when `b` has fewer than 8 bytes,
otherwise reads the first 8. -/
def leUint64 (b : List Byte) : Option Nat :=
  if b.length < 8 then none else some (leValue (b.take 8))

/-- Go `int(u)` for a `uint64` value `u`. -/
def toInt (u : Nat) : Int := wrapInt (u : Int)

/-- The bytes `binary.LittleEndian.PutUint64` writes: `n` bytes of `v`, low byte first. -/
def leBytes : Nat → Nat → List Byte
  | 0, _ => []
  | n + 1, v => (Fin.ofNat (v % 256)) :: leBytes n (v / 256)

/-- Big-endian value of a byte string, as `new(big.Int).SetBytes`. -/
def beValue (bs : List Byte) : Nat := bs.foldl (fun acc b => acc * 256 + b.val) 0

/-- Big-endian bytes of `v` in `n` digits at most, without leading zeros: with `n` large
enough this is `big.Int.Bytes`. -/
def beBytesAux : Nat → Nat → List Byte → List Byte
  | 0, _, acc => acc
  | n + 1, v, acc => if v = 0 then acc else beBytesAux n (v / 256) (Fin.ofNat (v % 256) :: acc)

/-- Go `x.Bytes()` of a non-negative `big.Int`. -/
def bigBytes (v : Nat) : List Byte := beBytesAux v v []

/-! ## Trailer size functions -/

def getUncleCoinbaseAddressSize (data : List Byte) : Option Int := do
  let sizeBytes ← slice data (sub64 (len data) 9) (sub64 (len data) 1)
  let u ← leUint64 sizeBytes
  pure (toInt u)

def getUncleCoinbaseAddressSizeTotal (data : List Byte) : Option Int := do
  let size ← getUncleCoinbaseAddressSize data
  pure (add64 size (mul64 size 32))

def getMinGasPriceSizeTotal (data : List Byte) : Option Int := do
  let size ← getUncleCoinbaseAddressSize data
  pure (add64 size 32)

def getMergedMiningTagsSize (data : List Byte) : Option Int := do
  let size ← getMinGasPriceSizeTotal data
  let sizeBytes ← slice data (sub64 (sub64 (len data) size) 9) (sub64 (sub64 (len data) size) 1)
  let u ← leUint64 sizeBytes
  pure (toInt u)

def getMergedMiningTagsTotalSize (data : List Byte) : Option Int := do
  let mergedMiningTagsSize ← getMergedMiningTagsSize data
  let size ← getMinGasPriceSizeTotal data
  pure (add64 (add64 size 8) mergedMiningTagsSize)

/-! ## The nine handlers -/

/-- Continue with the value of a helper, or fault when the helper panicked. -/
def orFault {α : Type} (o : Option α) (k : α → Outcome) : Outcome :=
  match o with
  | none => .fault
  | some a => k a

def blockHash.run (method : Method) (header : Header) (_arguments : List (List Byte)) : Outcome :=
  .pack method.outputs header.hash

def bitcoinHeader.run (method : Method) (header : Header) (_arguments : List (List Byte)) : Outcome :=
  orFault (getMergedMiningTagsTotalSize header.extra) fun size =>
  orFault (slice header.extra (sub64 (sub64 (len header.extra) size) 81)
      (sub64 (sub64 (len header.extra) size) 1)) fun extra =>
  .pack method.outputs extra

def coinbaseAddress.run (method : Method) (header : Header) (_arguments : List (List Byte)) : Outcome :=
  .pack method.outputs header.coinbase

def difficulty.run (method : Method) (header : Header) (_arguments : List (List Byte)) : Outcome :=
  .pack method.outputs (bigBytes header.difficulty)

/-- The buffer `b` of `gasLimit.run` and `gasUsed.run` after `PutUint64(b, v)`:
`make([]byte, 32)` with its first 8 bytes overwritten. -/
def putUint64In32 (v : Nat) : List Byte :=
  leBytes 8 (v % 2 ^ 64) ++ (List.replicate 32 (0 : Byte)).drop 8

def gasLimit.run (method : Method) (header : Header) (_arguments : List (List Byte)) : Outcome :=
  .pack method.outputs (putUint64In32 header.gasLimit)

def gasUsed.run (method : Method) (header : Header) (_arguments : List (List Byte)) : Outcome :=
  .pack method.outputs (putUint64In32 header.gasUsed)

def mergedMiningTags.run (method : Method) (header : Header) (_arguments : List (List Byte)) : Outcome :=
  orFault (getMergedMiningTagsSize header.extra) fun mergedMiningTagsSize =>
  orFault (getMinGasPriceSizeTotal header.extra) fun size =>
  orFault (slice header.extra
      (sub64 (sub64 (sub64 (len header.extra) mergedMiningTagsSize) size) 1)
      (sub64 (sub64 (len header.extra) size) 1)) fun mergedMiningTags =>
  .pack method.outputs mergedMiningTags

def minGasPrice.run (method : Method) (header : Header) (_arguments : List (List Byte)) : Outcome :=
  orFault (getUncleCoinbaseAddressSizeTotal header.extra) fun size =>
  orFault (slice header.extra (sub64 (sub64 (len header.extra) size) 33)
      (sub64 (sub64 (len header.extra) size) 1)) fun minGasPrice =>
  .pack method.outputs minGasPrice

/-- The guard `len(arguments) != 1 && len(arguments[0]) != 32` of `uncleCoinbaseAddress.run`:
`none` is the index panic of `arguments[0]` on an empty argument list; the right operand is
evaluated only when the left one is true. -/
def uncleGuard (arguments : List (List Byte)) : Option Bool :=
  if arguments.length ≠ 1 then
    (arguments[0]?).map fun a => decide (a.length ≠ 32)
  else some false

def uncleCoinbaseAddress.run (method : Method) (header : Header) (arguments : List (List Byte)) : Outcome :=
  orFault (uncleGuard arguments) fun bad =>
  if bad then .error .errBlockHeaderInvalidInput
  else
    orFault (arguments[0]?) fun arg0 =>
    orFault (leUint64 arg0) fun u =>
    let index := toInt u
    orFault (getUncleCoinbaseAddressSize header.extra) fun size =>
    if index < 0 ∨ index > size then .error .errBlockHeaderInvalidInput
    else
      orFault (slice header.extra
          (sub64 (sub64 (len header.extra) (mul64 index 32)) 41)
          (sub64 (sub64 (len header.extra) (mul64 index 32)) 1)) fun hash =>
      .pack method.outputs hash

/-- The implementations of the interface `BlockHeaderContract`, each holding its method. -/
inductive BlockHeaderContract
  | blockHash (method : Method)
  | bitcoinHeader (method : Method)
  | coinbaseAddress (method : Method)
  | difficulty (method : Method)
  | gasLimit (method : Method)
  | gasUsed (method : Method)
  | mergedMiningTags (method : Method)
  | minGasPrice (method : Method)
  | uncleCoinbaseAddress (method : Method)
  deriving DecidableEq, Repr

/-- Interface call `function.run(header, arguments...)`. -/
def BlockHeaderContract.run : BlockHeaderContract → Header → List (List Byte) → Outcome
  | .blockHash m => blockHash.run m
  | .bitcoinHeader m => bitcoinHeader.run m
  | .coinbaseAddress m => coinbaseAddress.run m
  | .difficulty m => difficulty.run m
  | .gasLimit m => gasLimit.run m
  | .gasUsed m => gasUsed.run m
  | .mergedMiningTags m => mergedMiningTags.run m
  | .minGasPrice m => minGasPrice.run m
  | .uncleCoinbaseAddress m => uncleCoinbaseAddress.run m

/-! ## The dispatcher -/

/-- A Go `map[[4]byte]BlockHeaderContract`, as its lookup function. -/
abbrev FunctionMap := List Byte → Option BlockHeaderContract

def FunctionMap.empty : FunctionMap := fun _ => none

/-- One `key: value` entry of a map literal: a later entry replaces an earlier one. -/
def FunctionMap.set (m : FunctionMap) (key : List Byte) (value : BlockHeaderContract) : FunctionMap :=
  fun k => if k = key then some value else m k

structure blockHeader where
  getHash : Nat → List Byte
  getHeader : List Byte → Nat → Option Header
  blockNumber : Nat
  functions : FunctionMap

/-- The part of `BlockContext` that `newBlockHeader` reads. -/
structure BlockContext where
  GetHash : Nat → List Byte
  GetHeader : List Byte → Nat → Option Header
  BlockNumber : Nat

/-- Go `signatureFromID`: the first four bytes of a method ID. -/
def signatureFromID (id : List Byte) : List Byte := id.take 4

/-- Go `abi.NewMethod(name, name, abi.Function, "", false, false, inputs, outputs)`; the ID is the
hash-derived selector computed by the ABI library, supplied here by `idOf`. -/
def NewMethod (idOf : String → List AbiType → List Byte) (name : String)
    (inputs outputs : List AbiType) : Method :=
  { name := name, inputs := inputs, outputs := outputs, ID := idOf name inputs }

def newBlockHeader (idOf : String → List AbiType → List Byte) (blockContext : BlockContext) :
    blockHeader :=
  let getBlockHashMethod := NewMethod idOf "getBlockHash" [.int256] [.bytes]
  let getBitcoinHeaderMethod := NewMethod idOf "getBitcoinHeader" [.int256] [.bytes]
  let getCoinbaseAddressMethod := NewMethod idOf "getCoinbaseAddress" [.int256] [.bytes]
  let getDifficultyMethod := NewMethod idOf "getDifficulty" [.int256] [.bytes]
  let getGasLimitMethod := NewMethod idOf "getGasLimit" [.int256] [.bytes]
  let getGasUsedMethod := NewMethod idOf "getGasUsed" [.int256] [.bytes]
  let getMergedMiningTagsMethod := NewMethod idOf "getMergedMiningTags" [.int256] [.string]
  let getMinGasPriceMethod := NewMethod idOf "getMinGasPrice" [.int256] [.bytes]
  let getUncleCoinbaseAddressMethod :=
    NewMethod idOf "getUncleCoinbaseAddress" [.int256, .int256] [.bytes]
  { getHash := blockContext.GetHash
    getHeader := blockContext.GetHeader
    blockNumber := blockContext.BlockNumber % 2 ^ 64
    functions :=
      ((((((((FunctionMap.empty.set
        (signatureFromID getBlockHashMethod.ID) (.blockHash getBlockHashMethod)).set
        (signatureFromID getBitcoinHeaderMethod.ID) (.bitcoinHeader getBitcoinHeaderMethod)).set
        (signatureFromID getCoinbaseAddressMethod.ID) (.coinbaseAddress getCoinbaseAddressMethod)).set
        (signatureFromID getDifficultyMethod.ID) (.difficulty getDifficultyMethod)).set
        (signatureFromID getGasLimitMethod.ID) (.gasLimit getGasLimitMethod)).set
        (signatureFromID getGasUsedMethod.ID) (.gasUsed getGasUsedMethod)).set
        (signatureFromID getMergedMiningTagsMethod.ID) (.mergedMiningTags getMergedMiningTagsMethod)).set
        (signatureFromID getMinGasPriceMethod.ID) (.minGasPrice getMinGasPriceMethod)).set
        (signatureFromID getUncleCoinbaseAddressMethod.ID)
          (.uncleCoinbaseAddress getUncleCoinbaseAddressMethod) }

/-- Go `bh.getFunction(input)`: the outer `none` is the panic of `input[:4]` on a short input,
the inner option is the `ok` flag of the map lookup. -/
def blockHeader.getFunction (bh : blockHeader) (input : List Byte) :
    Option (Option BlockHeaderContract) := do
  let signature ← slice input 0 4
  pure (bh.functions signature)

def blockHeader.RequiredGas (_bh : blockHeader) (input : List Byte) : Nat :=
  (4000 + (input.length % 2 ^ 64) * 2 % 2 ^ 64) % 2 ^ 64

def blockHeader.Run (bh : blockHeader) (input : List Byte) : Outcome :=
  if input.length ≠ 36 ∧ input.length ≠ 68 then .error .errBlockHeaderInvalidInput
  else
    orFault (bh.getFunction input) fun found =>
    match found with
    | none => .error .errBlockHeaderInvalidSignature
    | some function =>
      orFault (slice input 4 36) fun depthBytes =>
      let blockDepth := beValue depthBytes
      if ¬ blockDepth < 2 ^ 63 then .error .errBlockHeaderInvalidBlockDepth
      else
        let number := blockDepth % 2 ^ 64
        let hash := bh.getHash number
        match bh.getHeader hash number with
        | none => .error .errBlockHeaderInvalidBlockHash
        | some header =>
          orFault (slice input 36 (len input)) fun rest =>
          function.run header [rest]

/-! ## The HD-wallet utilities -/

/-- The error value `errHDWalletUtilInvalidInputData`. -/
inductive WalletError
  | errHDWalletUtilInvalidInputData   -- "invalid input data"
  deriving DecidableEq, Repr

def WalletError.message : WalletError → String
  | .errHDWalletUtilInvalidInputData => "invalid input data"

/-- What a call of a wallet `Run` does: `result b` is `return b, nil`, `error e` is
`return nil, e`, `nothing` is `return nil, nil`, and `fault` is a run-time panic. -/
inductive WalletOutcome
  | result (bytes : List Byte)
  | error (e : WalletError)
  | nothing
  | fault
  deriving DecidableEq, Repr

/-- A Go value held in an `interface{}`, by dynamic type: `[]byte`, `*big.Int`, `big.Int`,
`string`, or a value of any other type. -/
inductive GoValue
  | bytes (b : List Byte)
  | bigIntPtr (v : Int)
  | bigInt (v : Int)
  | string (s : List Byte)
  | other
  deriving DecidableEq, Repr

/-- The two library calls of `base58Check.Run`: `Unpack inputs data` is
`method.Inputs.Unpack(data)` of the ABI library (`none` is a non-nil error), and
`CheckEncode hash version` is `base58.CheckEncode(hash, version)`. -/
structure Library where
  Unpack : List AbiType → List Byte → Option (List GoValue)
  CheckEncode : List Byte → Byte → List Byte

/-- Continue with the value of a step, or fault when the step panicked. -/
def walletOrFault {α : Type} (o : Option α) (k : α → WalletOutcome) : WalletOutcome :=
  match o with
  | none => .fault
  | some a => k a

/-- The comma-ok assertion `_, ok := v.([]byte)`. -/
def isBytes : GoValue → Bool
  | .bytes _ => true
  | _ => false

/-- The single-value assertion `v.([]byte)`: `none` is the interface-conversion panic. -/
def assertBytes : GoValue → Option (List Byte)
  | .bytes b => some b
  | _ => none

/-- The comma-ok assertion `_, ok := v.(*big.Int)`. -/
def isBigIntPtr : GoValue → Bool
  | .bigIntPtr _ => true
  | _ => false

/-- The single-value assertion `v.(big.Int)`: it holds for the dynamic type `big.Int` only,
and `none` is the interface-conversion panic. -/
def assertBigInt : GoValue → Option Int
  | .bigInt v => some v
  | _ => none

/-- Go `x.IsInt64()`. -/
def IsInt64 (x : Int) : Bool := decide (-(2 ^ 63) ≤ x ∧ x < 2 ^ 63)

/-- Go `x.Int64()`: the low 64 bits as a signed integer. -/
def Int64 (x : Int) : Int := wrapInt x

/-- Go `byte(v)` for an `int64` value `v`. -/
def toByte (v : Int) : Byte := Fin.ofNat (v % 256).toNat

def base58Check.RequiredGas (_method : Method) (_input : List Byte) : Nat := 13000

def base58Check.Run (lib : Library) (method : Method) (input : List Byte) : WalletOutcome :=
  if input.length ≠ 64 then .error .errHDWalletUtilInvalidInputData
  else
    match lib.Unpack method.inputs input with
    | none => .error .errHDWalletUtilInvalidInputData
    | some args =>
      walletOrFault (args[0]?) fun arg0 =>
      if ¬ isBytes arg0 then .error .errHDWalletUtilInvalidInputData
      else
        walletOrFault (assertBytes arg0) fun hash =>
        if hash.length ≠ 20 then .error .errHDWalletUtilInvalidInputData
        else
          walletOrFault (args[1]?) fun arg1 =>
          if ¬ isBigIntPtr arg1 then .error .errHDWalletUtilInvalidInputData
          else
            walletOrFault (assertBigInt arg1) fun version =>
            if ¬ IsInt64 version ∨ Int64 version < 0 ∨ Int64 version ≥ 256 then
              .error .errHDWalletUtilInvalidInputData
            else .result (lib.CheckEncode hash (toByte (Int64 version)))

def deriveExtendedPublicKey.RequiredGas (_method : Method) (_input : List Byte) : Nat := 107000

def deriveExtendedPublicKey.Run (_method : Method) (_input : List Byte) : WalletOutcome := .nothing

def extractPublicKeyFromExtendedPublicKey.RequiredGas (_method : Method) (_input : List Byte) :
    Nat := 11300

def extractPublicKeyFromExtendedPublicKey.Run (_method : Method) (_input : List Byte) :
    WalletOutcome := .nothing

def getMultisigScriptHash.RequiredGas (_method : Method) (_input : List Byte) : Nat := 0

def getMultisigScriptHash.Run (_method : Method) (_input : List Byte) : WalletOutcome := .nothing

/-- The implementations of `PrecompiledContract` registered by `newHDWalletUtils`. -/
inductive PrecompiledContract
  | base58Check (method : Method)
  | deriveExtendedPublicKey (method : Method)
  | extractPublicKeyFromExtendedPublicKey (method : Method)
  | getMultisigScriptHash (method : Method)
  deriving DecidableEq, Repr

/-- Interface call `precompiled.RequiredGas(input)`. -/
def PrecompiledContract.RequiredGas : PrecompiledContract → List Byte → Nat
  | .base58Check m => base58Check.RequiredGas m
  | .deriveExtendedPublicKey m => deriveExtendedPublicKey.RequiredGas m
  | .extractPublicKeyFromExtendedPublicKey m => extractPublicKeyFromExtendedPublicKey.RequiredGas m
  | .getMultisigScriptHash m => getMultisigScriptHash.RequiredGas m

/-- Interface call `precompiled.Run(input)`. -/
def PrecompiledContract.Run (lib : Library) : PrecompiledContract → List Byte → WalletOutcome
  | .base58Check m => base58Check.Run lib m
  | .deriveExtendedPublicKey m => deriveExtendedPublicKey.Run m
  | .extractPublicKeyFromExtendedPublicKey m => extractPublicKeyFromExtendedPublicKey.Run m
  | .getMultisigScriptHash m => getMultisigScriptHash.Run m

/-- A Go `map[[4]byte]PrecompiledContract`, as its lookup function. -/
abbrev WalletMap := List Byte → Option PrecompiledContract

def WalletMap.empty : WalletMap := fun _ => none

/-- One `key: value` entry of a map literal: a later entry replaces an earlier one. -/
def WalletMap.set (m : WalletMap) (key : List Byte) (value : PrecompiledContract) : WalletMap :=
  fun k => if k = key then some value else m k

structure hdWalletUtils where
  functions : WalletMap

def newHDWalletUtils (idOf : String → List AbiType → List Byte) : hdWalletUtils :=
  let base58CheckMethod := NewMethod idOf "toBase58Check" [.bytes, .int256] [.string]
  let deriveExtendedPublicKeyMethod :=
    NewMethod idOf "deriveExtendedPublicKey" [.string, .string] [.string]
  let extractPublicKeyFromExtendedPublicKeyMethod :=
    NewMethod idOf "extractPublicKeyFromExtendedPublicKey" [.string] [.bytes]
  let getMultisigScriptHashMethod :=
    NewMethod idOf "getMultisigScriptHash" [.int256, .bytesArr] [.bytes]
  { functions :=
      (((WalletMap.empty.set
        (signatureFromID base58CheckMethod.ID) (.base58Check base58CheckMethod)).set
        (signatureFromID deriveExtendedPublicKeyMethod.ID)
          (.deriveExtendedPublicKey deriveExtendedPublicKeyMethod)).set
        (signatureFromID extractPublicKeyFromExtendedPublicKeyMethod.ID)
          (.extractPublicKeyFromExtendedPublicKey extractPublicKeyFromExtendedPublicKeyMethod)).set
        (signatureFromID getMultisigScriptHashMethod.ID)
          (.getMultisigScriptHash getMultisigScriptHashMethod) }

/-- Go `data[lo:hi]` on a slice whose backing array continues with the bytes `spare` beyond
its length: the upper bound is checked against the capacity `len(data) + len(spare)` and the
result can reach into `spare`; `none` is the out-of-range panic. -/
def sliceCap (data spare : List Byte) (lo hi : Int) : Option (List Byte) :=
  if 0 ≤ lo ∧ lo ≤ hi ∧ hi ≤ len data + len spare then
    some (((data ++ spare).drop lo.toNat).take (hi - lo).toNat)
  else none

/-- Go `hdwu.getFunction(input)` on a payload `input` whose backing array continues with
`spare` (so `cap(input) = len(input) + len(spare)`): the outer `none` is the panic of
`input[:4]` when the capacity is below 4, the inner option is the `ok` flag of the map
lookup. -/
def hdWalletUtils.getFunction (hdwu : hdWalletUtils) (input spare : List Byte) :
    Option (Option PrecompiledContract) := do
  let signature ← sliceCap input spare 0 4
  pure (hdwu.functions signature)

/-- Go `hdwu.RequiredGas(input)`: `none` is a run-time panic. -/
def hdWalletUtils.RequiredGas (hdwu : hdWalletUtils) (input spare : List Byte) : Option Nat :=
  match hdwu.getFunction input spare with
  | none => none
  | some none => some 0
  | some (some precompiled) => some (precompiled.RequiredGas input)

def hdWalletUtils.Run (lib : Library) (hdwu : hdWalletUtils) (input spare : List Byte) :
    WalletOutcome :=
  walletOrFault (hdwu.getFunction input spare) fun found =>
  match found with
  | none => .error .errHDWalletUtilInvalidInputData
  | some precompiled => precompiled.Run lib input

/-! ## The argument decoder of the ABI library -/

/-- The ABI library's `lengthPrefixPointsTo(index, output)`: the offset word at `index` plus 32
is where the data of a dynamic value begins, the word before it is the length; both the
beginning and the end must lie within `len(output)` (and fit 63 bits). `none` is an error. -/
def lengthPrefixPointsTo (index : Nat) (output : List Byte) : Option (Nat × Nat) :=
  let bigOffsetEnd := beValue ((output.drop index).take 32) + 32
  if output.length < bigOffsetEnd then none
  else if 2 ^ 63 ≤ bigOffsetEnd then none
  else
    let lengthBig := beValue ((output.drop (bigOffsetEnd - 32)).take 32)
    if 2 ^ 63 ≤ bigOffsetEnd + lengthBig then none
    else if output.length < bigOffsetEnd + lengthBig then none
    else some (bigOffsetEnd, lengthBig)

/-- The ABI library's `ReadInteger` for `int256`: the word as a two's-complement integer. -/
def readInt256 (word : List Byte) : Int :=
  if beValue word < 2 ^ 255 then (beValue word : Int) else (beValue word : Int) - 2 ^ 256

/-- The ABI library's `toGoType(index, bytes, output)`: a `[]byte`. -/
def toGoTypeBytes (index : Nat) (output : List Byte) : Option GoValue :=
  if output.length < index + 32 then none
  else
    match lengthPrefixPointsTo index output with
    | none => none
    | some (start, length) => some (.bytes ((output.drop start).take length))

/-- The ABI library's `toGoType(index, int256, output)`: a `*big.Int`. -/
def toGoTypeInt256 (index : Nat) (output : List Byte) : Option GoValue :=
  if output.length < index + 32 then none
  else some (.bigIntPtr (readInt256 ((output.drop index).take 32)))

/-- The ABI library's `Arguments.Unpack(data)` for the argument list `(bytes, int256)` of
`toBase58Check`, the only list a handler decodes: one value per argument, read from the head
words at 0 and 32; `none` is a non-nil error. Other argument lists are not decoded by any
handler and are answered with `none`. -/
def abiUnpack (inputs : List AbiType) (data : List Byte) : Option (List GoValue) :=
  if inputs = [.bytes, .int256] then
    if data.length = 0 then none
    else do
      let hash ← toGoTypeBytes 0 data
      let version ← toGoTypeInt256 32 data
      pure [hash, version]
  else none

/-! ## Concrete data used to instantiate the theorems -/

/-- The selectors the ABI library derives for the nine registered signatures
(`getBlockHash(int256)` is `2cce81aa`, and so on). -/
def selectorOf (name : String) (_inputs : List AbiType) : List Byte :=
  if name = "getBlockHash" then [44, 206, 129, 170]
  else if name = "getBitcoinHeader" then [48, 115, 198, 235]
  else if name = "getCoinbaseAddress" then [36, 62, 125, 54]
  else if name = "getDifficulty" then [147, 25, 163, 91]
  else if name = "getGasLimit" then [8, 160, 99, 100]
  else if name = "getGasUsed" then [6, 172, 112, 43]
  else if name = "getMergedMiningTags" then [92, 160, 83, 221]
  else if name = "getMinGasPrice" then [31, 29, 179, 186]
  else if name = "getUncleCoinbaseAddress" then [171, 205, 137, 132]
  else [0, 0, 0, 0]

/-- A 32-byte handler argument whose first 8 bytes are the little-endian index `i`. -/
def indexArgument (i : Nat) : List Byte := leBytes 8 i ++ List.replicate 24 0

/-- A header with hash `AA…AA` carrying the extension buffer `extra`. -/
def headerWithExtra (extra : List Byte) : Header :=
  { hash := List.replicate 32 170, coinbase := List.replicate 20 0, difficulty := 1,
    gasLimit := 0, gasUsed := 0, extra := extra }

/-- A chain that knows block 5 only, with header `header`. -/
def chainWithBlock5 (header : Header) : BlockContext :=
  { GetHash := fun _ => List.replicate 32 170
    GetHeader := fun _ number => if number = 5 then some header else none
    BlockNumber := 6 }

/-- A call payload: selector, the block number as a 32-byte big-endian word, further bytes. -/
def payloadOf (selector : List Byte) (number : Nat) (rest : List Byte) : List Byte :=
  selector ++ (leBytes 32 number).reverse ++ rest

/-- A 137-byte buffer: 64 filler bytes, two 32-byte slots, the count field holding 2, and the last byte. -/
def trailerCount2 : List Byte :=
  List.replicate 64 17 ++ List.replicate 32 187 ++ List.replicate 32 170 ++
    [2, 0, 0, 0, 0, 0, 0, 0] ++ [0]

/-- The selectors the ABI library derives for the four wallet signatures
(`toBase58Check(bytes,int256)` is `838c2a31`, and so on). -/
def walletSelectorOf (name : String) (_inputs : List AbiType) : List Byte :=
  if name = "toBase58Check" then [131, 140, 42, 49]
  else if name = "deriveExtendedPublicKey" then [171, 101, 221, 183]
  else if name = "extractPublicKeyFromExtendedPublicKey" then [129, 90, 79, 144]
  else if name = "getMultisigScriptHash" then [138, 209, 56, 37]
  else [0, 0, 0, 0]

/-- The ASCII bytes of `1111111111111111111114oLvT2`, the Base58Check string of the 20-byte
zero hash under version 0. -/
def zeroAddress : List Byte :=
  List.replicate 21 49 ++ [52, 111, 76, 118, 84, 50]

/-- The library with the decoder `abiUnpack`; its encoder is given at the zero hash and
version 0 only, where `base58.CheckEncode` yields `zeroAddress`. -/
def abiLibrary : Library :=
  { Unpack := abiUnpack
    CheckEncode := fun hash version =>
      if hash = List.replicate 20 0 ∧ version = 0 then zeroAddress else [] }

/-- The 128-byte ABI encoding of the arguments `(bytes, int256)` = (20 zero bytes, 0): the
offset word `0x40`, the version word, the length word `20`, and the hash padded to a word. -/
def zeroHashCall : List Byte :=
  (List.replicate 31 0 ++ [64]) ++ List.replicate 32 0 ++ (List.replicate 31 0 ++ [20]) ++
    List.replicate 32 0

/-- The method registered for `toBase58Check`. -/
def base58CheckMethod : Method :=
  NewMethod walletSelectorOf "toBase58Check" [.bytes, .int256] [.string]

/-- A 43-byte buffer with no uncles whose tag-size field holds 10: two tag bytes, the size
field, 24 further bytes, the count field holding 0, and the last byte. -/
def trailerTags10 : List Byte :=
  [97, 98] ++ [10, 0, 0, 0, 0, 0, 0, 0] ++ List.replicate 24 0 ++
    [0, 0, 0, 0, 0, 0, 0, 0] ++ [0]

/-! ## Basic facts on the machine arithmetic -/

theorem wrapInt_of_range (x : Int) (h1 : -(2 ^ 63) ≤ x) (h2 : x < 2 ^ 63) : wrapInt x = x := by
  unfold wrapInt
  omega

theorem wrapInt_range (x : Int) : -(2 ^ 63) ≤ wrapInt x ∧ wrapInt x < 2 ^ 63 := by
  unfold wrapInt
  omega

theorem slice_of_range (data : List Byte) (lo hi : Int) (h0 : 0 ≤ lo) (h1 : lo ≤ hi)
    (h2 : hi ≤ len data) :
    slice data lo hi = some ((data.drop lo.toNat).take (hi - lo).toNat) := by
  simp [slice, h0, h1, h2]

theorem slice_of_neg (data : List Byte) (lo hi : Int) (h0 : lo < 0) : slice data lo hi = none := by
  have : ¬ (0 ≤ lo) := by omega
  simp [slice, this]

theorem slice_eq_some (data : List Byte) (lo hi : Int) (r : List Byte)
    (h : slice data lo hi = some r) :
    0 ≤ lo ∧ lo ≤ hi ∧ hi ≤ len data ∧ r = (data.drop lo.toNat).take (hi - lo).toNat := by
  unfold slice at h
  split at h
  · rename_i hc
    simp at h
    exact ⟨hc.1, hc.2.1, hc.2.2, h.symm⟩
  · simp at h

theorem orFault_some {α : Type} (a : α) (k : α → Outcome) : orFault (some a) k = k a := rfl

theorem orFault_none {α : Type} (k : α → Outcome) : orFault none k = .fault := rfl

theorem orFault_eq_error {α : Type} (o : Option α) (k : α → Outcome) (e : Error)
    (h : orFault o k = .error e) : ∃ a, o = some a ∧ k a = .error e := by
  cases o with
  | none => simp [orFault] at h
  | some a => exact ⟨a, rfl, h⟩

/-- No handler returns the block-depth error. -/
theorem run_ne_blockDepth (f : BlockHeaderContract) (header : Header) (args : List (List Byte)) :
    f.run header args ≠ .error .errBlockHeaderInvalidBlockDepth := by
  intro h
  cases f with
  | blockHash m => simp [BlockHeaderContract.run, blockHash.run] at h
  | coinbaseAddress m => simp [BlockHeaderContract.run, coinbaseAddress.run] at h
  | difficulty m => simp [BlockHeaderContract.run, difficulty.run] at h
  | gasLimit m => simp [BlockHeaderContract.run, gasLimit.run] at h
  | gasUsed m => simp [BlockHeaderContract.run, gasUsed.run] at h
  | bitcoinHeader m =>
    simp only [BlockHeaderContract.run, bitcoinHeader.run] at h
    obtain ⟨_, _, h⟩ := orFault_eq_error _ _ _ h
    obtain ⟨_, _, h⟩ := orFault_eq_error _ _ _ h
    simp at h
  | mergedMiningTags m =>
    simp only [BlockHeaderContract.run, mergedMiningTags.run] at h
    obtain ⟨_, _, h⟩ := orFault_eq_error _ _ _ h
    obtain ⟨_, _, h⟩ := orFault_eq_error _ _ _ h
    obtain ⟨_, _, h⟩ := orFault_eq_error _ _ _ h
    simp at h
  | minGasPrice m =>
    simp only [BlockHeaderContract.run, minGasPrice.run] at h
    obtain ⟨_, _, h⟩ := orFault_eq_error _ _ _ h
    obtain ⟨_, _, h⟩ := orFault_eq_error _ _ _ h
    simp at h
  | uncleCoinbaseAddress m =>
    simp only [BlockHeaderContract.run, uncleCoinbaseAddress.run] at h
    obtain ⟨bad, _, h⟩ := orFault_eq_error _ _ _ h
    cases bad with
    | true => simp at h
    | false =>
      simp only [Bool.false_eq_true, if_false] at h
      obtain ⟨_, _, h⟩ := orFault_eq_error _ _ _ h
      obtain ⟨_, _, h⟩ := orFault_eq_error _ _ _ h
      obtain ⟨_, _, h⟩ := orFault_eq_error _ _ _ h
      split at h
      · simp at h
      · obtain ⟨_, _, h⟩ := orFault_eq_error _ _ _ h
        simp at h

/-- On a payload of 36 or 68 bytes the three slices of `Run` are in range. -/
theorem run_slices (input : List Byte) (h : input.length = 36 ∨ input.length = 68) :
    slice input 0 4 = some (input.take 4) ∧
    slice input 4 36 = some ((input.drop 4).take 32) ∧
    slice input 36 (len input) = some (input.drop 36) := by
  refine ⟨?_, ?_, ?_⟩
  · rw [slice_of_range _ _ _ (by omega) (by omega) (by unfold len; omega)]
    simp
  · rw [slice_of_range _ _ _ (by omega) (by omega) (by unfold len; omega)]
    simp
  · rw [slice_of_range _ _ _ (by omega) (by unfold len; omega) (by unfold len; omega)]
    simp only [Int.toNat_ofNat, Option.some.injEq]
    apply List.take_of_length_le
    simp only [len, List.length_drop]
    omega

/-- The dispatcher on a payload of accepted length, with the selector lookup exposed. -/
theorem Run_accepted (bh : blockHeader) (input : List Byte)
    (h : input.length = 36 ∨ input.length = 68) :
    bh.Run input =
      match bh.functions (input.take 4) with
      | none => .error .errBlockHeaderInvalidSignature
      | some function =>
        if ¬ beValue ((input.drop 4).take 32) < 2 ^ 63 then .error .errBlockHeaderInvalidBlockDepth
        else
          match bh.getHeader (bh.getHash (beValue ((input.drop 4).take 32)))
              (beValue ((input.drop 4).take 32)) with
          | none => .error .errBlockHeaderInvalidBlockHash
          | some header => function.run header [input.drop 36] := by
  obtain ⟨s1, s2, s3⟩ := run_slices input h
  have hl : ¬ (input.length ≠ 36 ∧ input.length ≠ 68) := by omega
  unfold blockHeader.Run
  rw [if_neg hl]
  simp only [blockHeader.getFunction, s1, s2, s3, orFault, Option.bind_eq_bind, Option.some_bind,
    Option.pure_def]
  cases hf : bh.functions (input.take 4) with
  | none => rfl
  | some f =>
    simp only []
    by_cases hd : beValue ((input.drop 4).take 32) < 2 ^ 63
    · have hm : beValue ((input.drop 4).take 32) % 2 ^ 64 = beValue ((input.drop 4).take 32) := by
        apply Nat.mod_eq_of_lt
        omega
      simp only [hd, not_true_eq_false, if_false, hm]
    · simp only [hd, not_false_eq_true, if_true]

/-! ## Locating the fields of the trailer -/

/-- A window anchored at the end of the buffer: `data[L-a : L-a+n]` for `n ≤ a ≤ L`. -/
theorem slice_tail (data : List Byte) (lo hi : Int) (a n : Nat)
    (hlo : lo = (data.length : Int) - a) (hhi : hi = (data.length : Int) - a + n)
    (ha : a ≤ data.length) (hn : n ≤ a) :
    slice data lo hi = some ((data.drop (data.length - a)).take n) := by
  rw [slice_of_range data lo hi (by omega) (by omega) (by unfold len; omega)]
  have e1 : lo.toNat = data.length - a := by omega
  have e2 : (hi - lo).toNat = n := by omega
  rw [e1, e2]

theorem length_tail_window (data : List Byte) (a n : Nat) (ha : a ≤ data.length) (hn : n ≤ a) :
    ((data.drop (data.length - a)).take n).length = n := by
  rw [List.length_take, List.length_drop]
  omega

theorem leUint64_of_length (w : List Byte) (h : w.length = 8) : leUint64 w = some (leValue w) := by
  unfold leUint64
  rw [if_neg (by omega), List.take_of_length_le (by omega)]

theorem getUncleCoinbaseAddressSize_short (data : List Byte) (h : data.length < 9) :
    getUncleCoinbaseAddressSize data = none := by
  have hneg : sub64 (len data) 9 < 0 := by
    unfold sub64 wrapInt len
    omega
  simp [getUncleCoinbaseAddressSize, slice_of_neg _ _ _ hneg]

theorem getUncleCoinbaseAddressSize_long (data : List Byte) (h : 9 ≤ data.length)
    (hL : data.length < 2 ^ 63) :
    getUncleCoinbaseAddressSize data =
      some (toInt (leValue ((data.drop (data.length - 9)).take 8))) := by
  have hs := slice_tail data (sub64 (len data) 9) (sub64 (len data) 1) 9 8
    (by unfold sub64 wrapInt len; omega) (by unfold sub64 wrapInt len; omega) h (by omega)
  have hw := length_tail_window data 9 8 h (by omega)
  simp [getUncleCoinbaseAddressSize, hs, leUint64_of_length _ hw]

theorem getUncleCoinbaseAddressSize_some (data : List Byte) (c : Int)
    (hc : getUncleCoinbaseAddressSize data = some c) (hL : data.length < 2 ^ 63) :
    9 ≤ data.length ∧ c = toInt (leValue ((data.drop (data.length - 9)).take 8)) := by
  by_cases h : 9 ≤ data.length
  · rw [getUncleCoinbaseAddressSize_long data h hL] at hc
    exact ⟨h, (Option.some.inj hc).symm⟩
  · rw [getUncleCoinbaseAddressSize_short data (by omega)] at hc
    cases hc

/-- With no count field to read, none of the derived sizes exists either. -/
theorem sizes_short (data : List Byte) (h : data.length < 9) :
    getUncleCoinbaseAddressSizeTotal data = none ∧ getMinGasPriceSizeTotal data = none ∧
    getMergedMiningTagsSize data = none ∧ getMergedMiningTagsTotalSize data = none := by
  have h0 := getUncleCoinbaseAddressSize_short data h
  have h1 : getMinGasPriceSizeTotal data = none := by simp [getMinGasPriceSizeTotal, h0]
  have h2 : getMergedMiningTagsSize data = none := by simp [getMergedMiningTagsSize, h1]
  refine ⟨?_, h1, h2, ?_⟩
  · simp [getUncleCoinbaseAddressSizeTotal, h0]
  · simp [getMergedMiningTagsTotalSize, h2]

/-- The `minGasPrice` handler once the count is known: one slice, then the encoder. -/
theorem minGasPrice_run_eq (method : Method) (header : Header) (args : List (List Byte)) (c : Int)
    (hc : getUncleCoinbaseAddressSize header.extra = some c) :
    minGasPrice.run method header args =
      orFault (slice header.extra
        (sub64 (sub64 (len header.extra) (add64 c (mul64 c 32))) 33)
        (sub64 (sub64 (len header.extra) (add64 c (mul64 c 32))) 1)) fun v =>
      .pack method.outputs v := by
  simp [minGasPrice.run, getUncleCoinbaseAddressSizeTotal, hc, orFault]

/-- The `uncleCoinbaseAddress` handler on a single argument of at least 8 bytes, once the
count is known: the index test, one slice, then the encoder. -/
theorem uncle_run_eq (method : Method) (header : Header) (a : List Byte) (c : Int)
    (ha : 8 ≤ a.length) (hc : getUncleCoinbaseAddressSize header.extra = some c) :
    uncleCoinbaseAddress.run method header [a] =
      if toInt (leValue (a.take 8)) < 0 ∨ toInt (leValue (a.take 8)) > c then
        .error .errBlockHeaderInvalidInput
      else
        orFault (slice header.extra
          (sub64 (sub64 (len header.extra) (mul64 (toInt (leValue (a.take 8))) 32)) 41)
          (sub64 (sub64 (len header.extra) (mul64 (toInt (leValue (a.take 8))) 32)) 1)) fun v =>
        .pack method.outputs v := by
  have hu : leUint64 a = some (leValue (a.take 8)) := by
    unfold leUint64
    rw [if_neg (by omega)]
  have hg : uncleGuard [a] = some false := by simp [uncleGuard]
  have h0 : ([a] : List (List Byte))[0]? = some a := rfl
  unfold uncleCoinbaseAddress.run
  rw [hg]
  show (if false = true then Outcome.error Error.errBlockHeaderInvalidInput else _) = _
  rw [if_neg (by decide), h0]
  show orFault (leUint64 a) _ = _
  rw [hu]
  show orFault (getUncleCoinbaseAddressSize header.extra) _ = _
  rw [hc, orFault_some]

/-- The slice of an accepted index that fits the buffer: 40 bytes ending at `L - 32*i - 1`. -/
theorem uncle_slice (data : List Byte) (i : Int) (k : Nat) (hi : i = (k : Int))
    (hfit : 32 * k + 41 ≤ data.length) (hL : data.length < 2 ^ 63) :
    slice data (sub64 (sub64 (len data) (mul64 i 32)) 41) (sub64 (sub64 (len data) (mul64 i 32)) 1) =
      some ((data.drop (data.length - (32 * k + 41))).take 40) := by
  apply slice_tail
  · subst hi
    unfold sub64 mul64 wrapInt len
    omega
  · subst hi
    unfold sub64 mul64 wrapInt len
    omega
  · exact hfit
  · omega

/-! ## Little-endian values -/

theorem leValue_eq_zero (w : List Byte) (h : leValue w = 0) : ∀ b ∈ w, b = 0 := by
  induction w with
  | nil => intro b hb; cases hb
  | cons x xs ih =>
    simp only [leValue] at h
    have hx : x.val = 0 := by omega
    have hxs : leValue xs = 0 := by omega
    intro b hb
    rcases List.mem_cons.mp hb with rfl | hb
    · exact Fin.ext hx
    · exact ih hxs b hb

theorem leValue_lt (w : List Byte) : leValue w < 256 ^ w.length := by
  induction w with
  | nil => simp [leValue]
  | cons x xs ih =>
    simp only [leValue, List.length_cons, pow_succ]
    have hx := x.isLt
    omega

theorem toInt_eq_zero (u : Nat) (hu : u < 2 ^ 64) (h : toInt u = 0) : u = 0 := by
  unfold toInt wrapInt at h
  omega

/-! ## Dispatch: payload length, selector, block number -/

/-- C8: for every payload whose length is neither 36 nor 68, `blockHeader.Run` returns
`nil` with the error "invalid input length"; the outcome does not change when the
chain-access functions `getHash` and `getHeader` are replaced by any others. -/
theorem Run_invalid_length (bh : blockHeader) (input : List Byte)
    (h : input.length ≠ 36 ∧ input.length ≠ 68) :
    bh.Run input = .error .errBlockHeaderInvalidInput ∧
    Error.message .errBlockHeaderInvalidInput = "invalid input length" ∧
    ∀ (getHash : Nat → List Byte) (getHeader : List Byte → Nat → Option Header),
      blockHeader.Run { bh with getHash := getHash, getHeader := getHeader } input = bh.Run input := by
  refine ⟨?_, rfl, ?_⟩
  · simp [blockHeader.Run, h]
  · intro gh gH
    simp [blockHeader.Run, h]

theorem Run_invalid_length_witness :
    (([] : List Byte).length ≠ 36 ∧ ([] : List Byte).length ≠ 68) ∧
    (newBlockHeader selectorOf (chainWithBlock5 (headerWithExtra []))).Run [] =
      .error .errBlockHeaderInvalidInput :=
  ⟨by decide, (Run_invalid_length _ [] (by decide)).1⟩

/-- C9: for every payload of 36 or 68 bytes whose first four bytes are not a key of the
dispatch table, `blockHeader.Run` returns `nil` with the error "invalid input data",
whatever the remaining bytes and the chain-access functions are. -/
theorem Run_unknown_selector (bh : blockHeader) (input : List Byte)
    (hlen : input.length = 36 ∨ input.length = 68)
    (hsel : bh.functions (input.take 4) = none) :
    bh.Run input = .error .errBlockHeaderInvalidSignature ∧
    Error.message .errBlockHeaderInvalidSignature = "invalid input data" := by
  refine ⟨?_, rfl⟩
  rw [Run_accepted bh input hlen, hsel]

theorem Run_unknown_selector_witness :
    (newBlockHeader selectorOf (chainWithBlock5 (headerWithExtra []))).Run
        ([1, 2, 3, 4] ++ List.replicate 32 255) = .error .errBlockHeaderInvalidSignature :=
  (Run_unknown_selector (newBlockHeader selectorOf (chainWithBlock5 (headerWithExtra [])))
    ([1, 2, 3, 4] ++ List.replicate 32 255) (by decide) (by decide)).1

/-- C10: for every payload of 36 or 68 bytes with a registered selector, `blockHeader.Run`
fails with "invalid block depth" exactly when bytes 4..36, read as a big-endian unsigned
integer, are at least 2^63; when they are below 2^63, `getHash` and `getHeader` are
called with exactly that integer. -/
theorem Run_block_depth (bh : blockHeader) (input : List Byte) (function : BlockHeaderContract)
    (hlen : input.length = 36 ∨ input.length = 68)
    (hsel : bh.functions (input.take 4) = some function) :
    (bh.Run input = .error .errBlockHeaderInvalidBlockDepth ↔
      2 ^ 63 ≤ beValue ((input.drop 4).take 32)) ∧
    Error.message .errBlockHeaderInvalidBlockDepth = "invalid block depth" ∧
    (beValue ((input.drop 4).take 32) < 2 ^ 63 →
      bh.Run input =
        match bh.getHeader (bh.getHash (beValue ((input.drop 4).take 32)))
            (beValue ((input.drop 4).take 32)) with
        | none => .error .errBlockHeaderInvalidBlockHash
        | some header => function.run header [input.drop 36]) := by
  have hrun := Run_accepted bh input hlen
  rw [hsel] at hrun
  simp only [] at hrun
  refine ⟨⟨?_, ?_⟩, rfl, ?_⟩
  · intro herr
    by_contra hlt
    have hlt2 : beValue ((input.drop 4).take 32) < 2 ^ 63 := by omega
    rw [hrun] at herr
    simp only [hlt2, not_true_eq_false, if_false] at herr
    split at herr
    · simp at herr
    · exact run_ne_blockDepth _ _ _ herr
  · intro hge
    have hn : ¬ beValue ((input.drop 4).take 32) < 2 ^ 63 := by omega
    rw [hrun]
    simp only [hn, not_false_eq_true, if_true]
  · intro hlt
    rw [hrun]
    simp only [hlt, not_true_eq_false, if_false]

theorem Run_block_depth_witness :
    ((newBlockHeader selectorOf (chainWithBlock5 (headerWithExtra []))).Run
        (payloadOf [44, 206, 129, 170] (2 ^ 63) []) = .error .errBlockHeaderInvalidBlockDepth ↔
      2 ^ 63 ≤ beValue (((payloadOf [44, 206, 129, 170] (2 ^ 63) []).drop 4).take 32)) :=
  (Run_block_depth (newBlockHeader selectorOf (chainWithBlock5 (headerWithExtra [])))
    (payloadOf [44, 206, 129, 170] (2 ^ 63) [])
    (.blockHash (NewMethod selectorOf "getBlockHash" [.int256] [.bytes]))
    (by decide) (by decide)).1

/-! ## The trailer handlers -/

/-- C2, counterexample: on the empty extension buffer each of the four trailer handlers stops
with an out-of-range slice access; none returns a result or an error. -/
theorem handlers_fault_on_empty :
    bitcoinHeader.run (NewMethod selectorOf "getBitcoinHeader" [.int256] [.bytes])
        (headerWithExtra []) [[]] = .fault ∧
    mergedMiningTags.run (NewMethod selectorOf "getMergedMiningTags" [.int256] [.string])
        (headerWithExtra []) [[]] = .fault ∧
    minGasPrice.run (NewMethod selectorOf "getMinGasPrice" [.int256] [.bytes])
        (headerWithExtra []) [[]] = .fault ∧
    uncleCoinbaseAddress.run
        (NewMethod selectorOf "getUncleCoinbaseAddress" [.int256, .int256] [.bytes])
        (headerWithExtra []) [indexArgument 0] = .fault := by
  decide

/-- C2, amended: the trailer codec has no bounds checks of its own, so for every extension
buffer shorter than 9 bytes each of the handlers `bitcoinHeader`, `mergedMiningTags`,
`minGasPrice` and `uncleCoinbaseAddress` (on any single argument) ends in the out-of-range
fault of the slice that reads the count field, and returns neither a result nor an error. -/
theorem handlers_fault_on_short (method : Method) (header : Header) (arg : List Byte)
    (h : header.extra.length < 9) :
    bitcoinHeader.run method header [arg] = .fault ∧
    mergedMiningTags.run method header [arg] = .fault ∧
    minGasPrice.run method header [arg] = .fault ∧
    uncleCoinbaseAddress.run method header [arg] = .fault := by
  obtain ⟨h1, h2, h3, h4⟩ := sizes_short header.extra h
  have h0 := getUncleCoinbaseAddressSize_short header.extra h
  refine ⟨?_, ?_, ?_, ?_⟩
  · unfold bitcoinHeader.run
    rw [h4, orFault_none]
  · unfold mergedMiningTags.run
    rw [h3, orFault_none]
  · unfold minGasPrice.run
    rw [h1, orFault_none]
  · have hg : uncleGuard [arg] = some false := by simp [uncleGuard]
    have ha : ([arg] : List (List Byte))[0]? = some arg := rfl
    unfold uncleCoinbaseAddress.run
    rw [hg, orFault_some, if_neg (by decide), ha, orFault_some]
    cases leUint64 arg with
    | none => rw [orFault_none]
    | some u => rw [orFault_some, h0, orFault_none]

theorem handlers_fault_on_short_witness :
    minGasPrice.run (NewMethod selectorOf "getMinGasPrice" [.int256] [.bytes])
        (headerWithExtra [7, 0, 0, 0, 0, 0, 0, 0]) [[]] = .fault :=
  (handlers_fault_on_short (NewMethod selectorOf "getMinGasPrice" [.int256] [.bytes])
    (headerWithExtra [7, 0, 0, 0, 0, 0, 0, 0]) [] (by decide)).2.2.1

/-- C7: for every extension buffer `E` of length `L` whose decoded uncle count is `c ≥ 0`
with `33*c + 33 ≤ L`, the `minGasPrice` handler packs exactly the 32 bytes
`E[L - 33*c - 33 : L - 33*c - 1]`. -/
theorem minGasPrice_location (method : Method) (header : Header) (args : List (List Byte))
    (c : Nat) (hc : getUncleCoinbaseAddressSize header.extra = some (c : Int))
    (hfit : 33 * c + 33 ≤ header.extra.length) (hL : header.extra.length < 2 ^ 63) :
    minGasPrice.run method header args =
      .pack method.outputs
        ((header.extra.drop (header.extra.length - 33 * c - 33)).take 32) ∧
    ((header.extra.drop (header.extra.length - 33 * c - 33)).take 32).length = 32 := by
  have e : header.extra.length - 33 * c - 33 = header.extra.length - (33 * c + 33) := by omega
  rw [e]
  refine ⟨?_, length_tail_window _ _ _ hfit (by omega)⟩
  rw [minGasPrice_run_eq method header args _ hc,
    slice_tail header.extra _ _ (33 * c + 33) 32
      (by unfold sub64 add64 mul64 wrapInt len; omega)
      (by unfold sub64 add64 mul64 wrapInt len; omega) hfit (by omega),
    orFault_some]

theorem minGasPrice_location_witness :
    minGasPrice.run (NewMethod selectorOf "getMinGasPrice" [.int256] [.bytes])
        (headerWithExtra trailerCount2) [[]] =
      .pack [.bytes] (((headerWithExtra trailerCount2).extra.drop
        ((headerWithExtra trailerCount2).extra.length - 33 * 2 - 33)).take 32) :=
  (minGasPrice_location (NewMethod selectorOf "getMinGasPrice" [.int256] [.bytes])
    (headerWithExtra trailerCount2) [[]] 2 (by decide) (by decide) (by decide)).1

/-- C4: for every extension buffer with decoded uncle count `c` and every 32-byte argument
whose first 8 bytes decode to the signed index `i`, with `32*i + 41 ≤ L` whenever `0 ≤ i`,
the `uncleCoinbaseAddress` handler returns `nil` with the invalid-input error exactly when
`i < 0` or `i > c`; every other index, `i = c` included, yields a result. -/
theorem uncle_index_bound (method : Method) (header : Header) (a : List Byte) (c : Int)
    (ha : a.length = 32) (hL : header.extra.length < 2 ^ 63)
    (hc : getUncleCoinbaseAddressSize header.extra = some c)
    (hfit : 0 ≤ toInt (leValue (a.take 8)) →
      32 * toInt (leValue (a.take 8)) + 41 ≤ (header.extra.length : Int)) :
    (uncleCoinbaseAddress.run method header [a] = .error .errBlockHeaderInvalidInput ↔
      (toInt (leValue (a.take 8)) < 0 ∨ toInt (leValue (a.take 8)) > c)) ∧
    (¬ (toInt (leValue (a.take 8)) < 0 ∨ toInt (leValue (a.take 8)) > c) →
      ∃ v, uncleCoinbaseAddress.run method header [a] = .pack method.outputs v) := by
  rw [uncle_run_eq method header a c (by omega) hc]
  by_cases hcond : toInt (leValue (a.take 8)) < 0 ∨ toInt (leValue (a.take 8)) > c
  · rw [if_pos hcond]
    exact ⟨⟨fun _ => hcond, fun _ => rfl⟩, fun hn => absurd hcond hn⟩
  · rw [if_neg hcond]
    have h0 : 0 ≤ toInt (leValue (a.take 8)) := by omega
    have hf := hfit h0
    have hs := uncle_slice header.extra (toInt (leValue (a.take 8)))
      (toInt (leValue (a.take 8))).toNat (by omega) (by omega) hL
    rw [hs, orFault_some]
    refine ⟨⟨fun h => ?_, fun h => absurd h hcond⟩, fun _ => ⟨_, rfl⟩⟩
    cases h

theorem uncle_index_bound_witness :
    (uncleCoinbaseAddress.run
        (NewMethod selectorOf "getUncleCoinbaseAddress" [.int256, .int256] [.bytes])
        (headerWithExtra trailerCount2) [indexArgument 3] = .error .errBlockHeaderInvalidInput ↔
      (toInt (leValue ((indexArgument 3).take 8)) < 0 ∨
        toInt (leValue ((indexArgument 3).take 8)) > 2)) :=
  (uncle_index_bound
    (NewMethod selectorOf "getUncleCoinbaseAddress" [.int256, .int256] [.bytes])
    (headerWithExtra trailerCount2) (indexArgument 3) 2
    (by decide) (by decide) (by decide) (by decide)).1

/-- C3: what the code does for an accepted index: for every extension buffer of length `L`
with decoded uncle count `c` and every 32-byte argument decoding to an index `k ≤ c` with
`32*k + 41 ≤ L`, the `uncleCoinbaseAddress` handler packs the 40 bytes
`E[L - 32*k - 41 : L - 32*k - 1]`; for index 0 these are `E[L-41 : L-1]`, the 32-byte slot
followed by the 8 bytes of the count field. -/
theorem uncle_slot_forty_bytes (method : Method) (header : Header) (a : List Byte) (c : Int)
    (k : Nat) (ha : a.length = 32) (hk : toInt (leValue (a.take 8)) = (k : Int))
    (hL : header.extra.length < 2 ^ 63)
    (hc : getUncleCoinbaseAddressSize header.extra = some c) (hkc : (k : Int) ≤ c)
    (hfit : 32 * k + 41 ≤ header.extra.length) :
    uncleCoinbaseAddress.run method header [a] =
      .pack method.outputs
        ((header.extra.drop (header.extra.length - (32 * k + 41))).take 40) ∧
    ((header.extra.drop (header.extra.length - (32 * k + 41))).take 40).length = 40 := by
  refine ⟨?_, length_tail_window _ _ _ hfit (by omega)⟩
  rw [uncle_run_eq method header a c (by omega) hc, hk,
    if_neg (by omega), uncle_slice header.extra (k : Int) k rfl hfit hL, orFault_some]

theorem uncle_slot_forty_bytes_witness :
    uncleCoinbaseAddress.run
        (NewMethod selectorOf "getUncleCoinbaseAddress" [.int256, .int256] [.bytes])
        (headerWithExtra trailerCount2) [indexArgument 0] =
      .pack [.bytes] (List.replicate 32 170 ++ [2, 0, 0, 0, 0, 0, 0, 0]) ∧
    (List.replicate 32 170 ++ [2, 0, 0, 0, 0, 0, 0, 0] : List Byte).length = 40 :=
  uncle_slot_forty_bytes
    (NewMethod selectorOf "getUncleCoinbaseAddress" [.int256, .int256] [.bytes])
    (headerWithExtra trailerCount2) (indexArgument 0) 2 0
    (by decide) (by decide) (by decide) (by decide) (by decide) (by decide)

/-- The entry written last in the map literal of `newBlockHeader` is the one found under the
selector of `getUncleCoinbaseAddress`. -/
theorem newBlockHeader_uncle (idOf : String → List AbiType → List Byte)
    (blockContext : BlockContext) :
    (newBlockHeader idOf blockContext).functions
        (signatureFromID (idOf "getUncleCoinbaseAddress" [.int256, .int256])) =
      some (.uncleCoinbaseAddress
        (NewMethod idOf "getUncleCoinbaseAddress" [.int256, .int256] [.bytes])) := by
  simp [newBlockHeader, FunctionMap.set, NewMethod]

/-- C5: what the code does on the 36-byte call shape: for every 36-byte payload with the
selector of `getUncleCoinbaseAddress` whose block number resolves to a header,
`blockHeader.Run` hands the handler the empty remainder `input[36:]`; the guard
`len(arguments) != 1 && len(arguments[0]) != 32` lets it through, and reading the 8-byte
index from it is a run-time fault, not the invalid-input error. -/
theorem Run_uncle_without_argument (idOf : String → List AbiType → List Byte)
    (blockContext : BlockContext) (input : List Byte) (header : Header)
    (hlen : input.length = 36)
    (hsel : input.take 4 = signatureFromID (idOf "getUncleCoinbaseAddress" [.int256, .int256]))
    (hfit : beValue ((input.drop 4).take 32) < 2 ^ 63)
    (hhdr : blockContext.GetHeader (blockContext.GetHash (beValue ((input.drop 4).take 32)))
      (beValue ((input.drop 4).take 32)) = some header) :
    (newBlockHeader idOf blockContext).Run input = .fault := by
  have hf := newBlockHeader_uncle idOf blockContext
  rw [← hsel] at hf
  have hrest : input.drop 36 = [] := List.drop_eq_nil_of_le (by omega)
  have hh : (newBlockHeader idOf blockContext).getHeader
      ((newBlockHeader idOf blockContext).getHash (beValue ((input.drop 4).take 32)))
      (beValue ((input.drop 4).take 32)) = some header := hhdr
  rw [Run_accepted _ input (Or.inl hlen), hf]
  simp only [hfit, not_true_eq_false, if_false, hh, hrest]
  rfl

theorem Run_uncle_without_argument_witness :
    (newBlockHeader selectorOf (chainWithBlock5 (headerWithExtra trailerCount2))).Run
        (payloadOf [171, 205, 137, 132] 5 []) = .fault :=
  Run_uncle_without_argument selectorOf (chainWithBlock5 (headerWithExtra trailerCount2))
    (payloadOf [171, 205, 137, 132] 5 []) (headerWithExtra trailerCount2)
    (by decide) (by decide) (by decide) (by decide)

/-- C6: what the code computes: for every extension buffer of length `L` with decoded uncle
count `c ≥ 0` and `33*c + 41 ≤ L`, `getUncleCoinbaseAddressSizeTotal` is `33*c` while
`getMinGasPriceSizeTotal` is `c + 32`, the count plus 32 and not the uncle total plus 32, so
`getMergedMiningTagsSize` reads the 8 bytes `E[L-c-41 : L-c-33]`. -/
theorem minGasPriceSizeTotal_uses_count (data : List Byte) (c : Nat)
    (hc : getUncleCoinbaseAddressSize data = some (c : Int))
    (hfit : 33 * c + 41 ≤ data.length) (hL : data.length < 2 ^ 63) :
    getUncleCoinbaseAddressSizeTotal data = some ((33 * c : Nat) : Int) ∧
    getMinGasPriceSizeTotal data = some ((c + 32 : Nat) : Int) ∧
    getMergedMiningTagsSize data =
      some (toInt (leValue ((data.drop (data.length - (c + 41))).take 8))) := by
  have h1 : getMinGasPriceSizeTotal data = some ((c + 32 : Nat) : Int) := by
    simp only [getMinGasPriceSizeTotal, hc, Option.bind_eq_bind, Option.some_bind, Option.pure_def,
      Option.some.injEq]
    unfold add64 wrapInt
    omega
  refine ⟨?_, h1, ?_⟩
  · simp only [getUncleCoinbaseAddressSizeTotal, hc, Option.bind_eq_bind, Option.some_bind,
      Option.pure_def, Option.some.injEq]
    unfold add64 mul64 wrapInt
    omega
  · have hs := slice_tail data (sub64 (sub64 (len data) ((c + 32 : Nat) : Int)) 9)
      (sub64 (sub64 (len data) ((c + 32 : Nat) : Int)) 1) (c + 41) 8
      (by unfold sub64 wrapInt len; omega) (by unfold sub64 wrapInt len; omega)
      (by omega) (by omega)
    have hw := length_tail_window data (c + 41) 8 (by omega) (by omega)
    simp only [getMergedMiningTagsSize, h1, hs, leUint64_of_length _ hw, Option.bind_eq_bind,
      Option.some_bind, Option.pure_def]

theorem minGasPriceSizeTotal_uses_count_witness :
    getUncleCoinbaseAddressSizeTotal trailerCount2 = some 66 ∧
    getMinGasPriceSizeTotal trailerCount2 = some 34 ∧
    getMergedMiningTagsSize trailerCount2 =
      some (toInt (leValue ((trailerCount2.drop (trailerCount2.length - (2 + 41))).take 8))) :=
  minGasPriceSizeTotal_uses_count trailerCount2 2 (by decide) (by decide) (by decide)

/-- With no uncles the slice of `minGasPrice.run` is `E[L-33 : L-1]`, which ends with the
8 bytes `E[L-9 : L-1]` of the count field: whatever the handler packs has a zero byte at
position 31 when the count is zero. -/
theorem minGasPrice_ends_with_count (method : Method) (header : Header) (args : List (List Byte))
    (outs : List AbiType) (v : List Byte) (hL : header.extra.length < 2 ^ 63)
    (hc : getUncleCoinbaseAddressSize header.extra = some 0)
    (hv : minGasPrice.run method header args = .pack outs v) :
    v[31]? = some 0 := by
  obtain ⟨h9, hz⟩ := getUncleCoinbaseAddressSize_some header.extra 0 hc hL
  have hw8 := length_tail_window header.extra 9 8 h9 (by omega)
  have hlt := leValue_lt ((header.extra.drop (header.extra.length - 9)).take 8)
  rw [hw8] at hlt
  have hzero := leValue_eq_zero _ (toInt_eq_zero _ (by omega) hz.symm)
  rw [minGasPrice_run_eq method header args 0 hc] at hv
  have elo : sub64 (sub64 (len header.extra) (add64 0 (mul64 0 32))) 33 =
      (header.extra.length : Int) - 33 := by
    unfold sub64 add64 mul64 wrapInt len
    omega
  have ehi : sub64 (sub64 (len header.extra) (add64 0 (mul64 0 32))) 1 =
      (header.extra.length : Int) - 1 := by
    unfold sub64 add64 mul64 wrapInt len
    omega
  rw [elo, ehi] at hv
  cases hs : slice header.extra ((header.extra.length : Int) - 33)
      ((header.extra.length : Int) - 1) with
  | none =>
    rw [hs, orFault_none] at hv
    cases hv
  | some r =>
    rw [hs, orFault_some] at hv
    obtain ⟨hlo, _, _, hr⟩ := slice_eq_some _ _ _ _ hs
    have e1 : ((header.extra.length : Int) - 33).toNat = header.extra.length - 33 := by omega
    have e2 : ((header.extra.length : Int) - 1 - ((header.extra.length : Int) - 33)).toNat = 32 := by
      omega
    rw [e1, e2] at hr
    have hrv : r = v := by
      injection hv
    subst hrv
    have hidx : header.extra.length - 33 + 31 = header.extra.length - 9 + 7 := by omega
    have hget : r[31]? = ((header.extra.drop (header.extra.length - 9)).take 8)[7]? := by
      rw [hr, List.getElem?_take_of_lt (by omega), List.getElem?_take_of_lt (by omega),
        List.getElem?_drop, List.getElem?_drop, hidx]
    have h7 : 7 < ((header.extra.drop (header.extra.length - 9)).take 8).length := by omega
    rw [hget, List.getElem?_eq_getElem h7]
    exact congrArg some (hzero _ (List.getElem_mem _))

/-- C1, at the trailer with an 80-byte zero header, no tags, no uncles and the 32-byte
minimum gas price `00…01`: no extension buffer decodes to these fields, because the slice of
`minGasPrice.run` overlaps the count field. -/
theorem no_trailer_for_min_gas_price_one :
    ¬ ∃ E : List Byte, E.length < 2 ^ 63 ∧
      getUncleCoinbaseAddressSize E = some 0 ∧
      bitcoinHeader.run (NewMethod selectorOf "getBitcoinHeader" [.int256] [.bytes])
        (headerWithExtra E) [[]] = .pack [.bytes] (List.replicate 80 0) ∧
      mergedMiningTags.run (NewMethod selectorOf "getMergedMiningTags" [.int256] [.string])
        (headerWithExtra E) [[]] = .pack [.string] [] ∧
      minGasPrice.run (NewMethod selectorOf "getMinGasPrice" [.int256] [.bytes])
        (headerWithExtra E) [[]] = .pack [.bytes] (List.replicate 31 0 ++ [1]) := by
  rintro ⟨E, hL, hc, _, _, hg⟩
  have h := minGasPrice_ends_with_count _ (headerWithExtra E) _ _ _ hL hc hg
  revert h
  decide

/-! ## Header resolution and gas of the header family -/

/-- C11: for every payload of 36 or 68 bytes with a registered selector and a block number
`n < 2^63`: when `getHeader(getHash(n), n)` yields no header, `blockHeader.Run` returns `nil`
with the error "invalid block hash", whatever the selected handler is; otherwise its result
is exactly the selected handler's result on that header and on the bytes `input[36:]`. -/
theorem Run_header_resolution (bh : blockHeader) (input : List Byte)
    (function : BlockHeaderContract)
    (hlen : input.length = 36 ∨ input.length = 68)
    (hsel : bh.functions (input.take 4) = some function)
    (hfit : beValue ((input.drop 4).take 32) < 2 ^ 63) :
    (bh.getHeader (bh.getHash (beValue ((input.drop 4).take 32)))
        (beValue ((input.drop 4).take 32)) = none →
      bh.Run input = .error .errBlockHeaderInvalidBlockHash) ∧
    Error.message .errBlockHeaderInvalidBlockHash = "invalid block hash" ∧
    (∀ header, bh.getHeader (bh.getHash (beValue ((input.drop 4).take 32)))
        (beValue ((input.drop 4).take 32)) = some header →
      bh.Run input = function.run header [input.drop 36]) := by
  have hrun := Run_accepted bh input hlen
  rw [hsel] at hrun
  simp only [hfit, not_true_eq_false, if_false] at hrun
  refine ⟨fun hnone => ?_, rfl, fun header hsome => ?_⟩
  · rw [hrun, hnone]
  · rw [hrun, hsome]

theorem Run_header_resolution_witness :
    (newBlockHeader selectorOf (chainWithBlock5 (headerWithExtra []))).Run
        (payloadOf [44, 206, 129, 170] 7 []) = .error .errBlockHeaderInvalidBlockHash :=
  (Run_header_resolution (newBlockHeader selectorOf (chainWithBlock5 (headerWithExtra [])))
    (payloadOf [44, 206, 129, 170] 7 [])
    (.blockHash (NewMethod selectorOf "getBlockHash" [.int256] [.bytes]))
    (by decide) (by decide) (by decide)).1 (by decide)

/-- C12: for every payload, of any length and content, `blockHeader.RequiredGas` is
`4000 + 2*len(payload)` as a 64-bit unsigned value (the sum itself whenever it is below
2^64); it is defined for every payload, and payloads of equal length get equal gas, whatever
the dispatch table and the chain are. -/
theorem RequiredGas_formula (bh : blockHeader) (input : List Byte) :
    bh.RequiredGas input = (4000 + 2 * input.length) % 2 ^ 64 ∧
    (4000 + 2 * input.length < 2 ^ 64 → bh.RequiredGas input = 4000 + 2 * input.length) ∧
    (∀ (bh2 : blockHeader) (input2 : List Byte), input2.length = input.length →
      bh2.RequiredGas input2 = bh.RequiredGas input) := by
  refine ⟨?_, ?_, ?_⟩
  · unfold blockHeader.RequiredGas
    omega
  · intro h
    unfold blockHeader.RequiredGas
    omega
  · intro bh2 input2 h
    unfold blockHeader.RequiredGas
    rw [h]

/-! ## Gas fields -/

theorem leBytes_length (n v : Nat) : (leBytes n v).length = n := by
  induction n generalizing v with
  | zero => rfl
  | succ n ih => simp [leBytes, ih]

/-- The bytes written by `leBytes` read back as the value modulo `256^n`. -/
theorem leValue_leBytes (n v : Nat) : leValue (leBytes n v) = v % 256 ^ n := by
  induction n generalizing v with
  | zero => simp [leBytes, leValue, Nat.mod_one]
  | succ n ih =>
    have hb : (Fin.ofNat (v % 256) : Byte).val = v % 256 := by
      simp [Fin.ofNat]
    simp only [leBytes, leValue, ih, hb]
    rw [pow_succ, mul_comm (256 ^ n) 256, Nat.mod_mul]

/-- C13, counterexample: for the gas limit 1 the buffer handed to the encoder is not 24 zero
bytes followed by the 8 little-endian bytes of 1. -/
theorem gasLimit_not_left_padded :
    gasLimit.run (NewMethod selectorOf "getGasLimit" [.int256] [.bytes])
        { headerWithExtra [] with gasLimit := 1 } [[]] ≠
      .pack [.bytes] (List.replicate 24 0 ++ leBytes 8 1) := by
  decide

/-- C13, amended: for every header, the 32-byte buffer that the `gasLimit` handler
(respectively the `gasUsed` handler) hands to the result encoder is the 8-byte little-endian
encoding of `header.GasLimit` (respectively `header.GasUsed`) followed by 24 zero bytes;
both handlers use the same encoding function of their field. -/
theorem gas_encoding (method : Method) (header : Header) (args : List (List Byte)) :
    gasLimit.run method header args =
      .pack method.outputs (leBytes 8 (header.gasLimit % 2 ^ 64) ++ List.replicate 24 0) ∧
    gasUsed.run method header args =
      .pack method.outputs (leBytes 8 (header.gasUsed % 2 ^ 64) ++ List.replicate 24 0) ∧
    gasLimit.run method header args = .pack method.outputs (putUint64In32 header.gasLimit) ∧
    gasUsed.run method header args = .pack method.outputs (putUint64In32 header.gasUsed) ∧
    (putUint64In32 header.gasLimit).length = 32 ∧
    leValue (leBytes 8 (header.gasLimit % 2 ^ 64)) = header.gasLimit % 2 ^ 64 := by
  have hz : (List.replicate 32 (0 : Byte)).drop 8 = List.replicate 24 0 := by decide
  refine ⟨?_, ?_, rfl, rfl, ?_, ?_⟩
  · simp only [gasLimit.run, putUint64In32, hz]
  · simp only [gasUsed.run, putUint64In32, hz]
  · simp only [putUint64In32, hz, List.length_append, leBytes_length, List.length_replicate]
  · rw [leValue_leBytes]
    apply Nat.mod_eq_of_lt
    exact Nat.mod_lt _ (by decide)

/-! ## The HD-wallet dispatcher and its handlers -/

theorem walletOrFault_some {α : Type} (a : α) (k : α → WalletOutcome) :
    walletOrFault (some a) k = k a := rfl

theorem walletOrFault_none {α : Type} (k : α → WalletOutcome) :
    walletOrFault none k = .fault := rfl

theorem walletOrFault_eq_result {α : Type} (o : Option α) (k : α → WalletOutcome)
    (r : List Byte) (h : walletOrFault o k = .result r) : ∃ a, o = some a ∧ k a = .result r := by
  cases o with
  | none => simp [walletOrFault] at h
  | some a => exact ⟨a, rfl, h⟩

/-- A value that passes the test `.(*big.Int)` fails the assertion `.(big.Int)`. -/
theorem assertBigInt_of_ptr (a : GoValue) (h : isBigIntPtr a = true) : assertBigInt a = none := by
  cases a with
  | bigIntPtr v => rfl
  | bytes b => simp [isBigIntPtr] at h
  | bigInt v => simp [isBigIntPtr] at h
  | string s => simp [isBigIntPtr] at h
  | other => simp [isBigIntPtr] at h

theorem selector_slice_cap (input spare : List Byte) (h : 4 ≤ input.length + spare.length) :
    sliceCap input spare 0 4 = some ((input ++ spare).take 4) := by
  have hc : 0 ≤ (0 : Int) ∧ (0 : Int) ≤ 4 ∧ (4 : Int) ≤ len input + len spare := by
    unfold len
    omega
  unfold sliceCap
  rw [if_pos hc]
  simp

theorem selector_slice (input spare : List Byte) (h : 4 ≤ input.length) :
    sliceCap input spare 0 4 = some (input.take 4) := by
  rw [selector_slice_cap input spare (by omega), List.take_append_of_le_length h]

theorem selector_slice_short (input spare : List Byte) (h : input.length + spare.length < 4) :
    sliceCap input spare 0 4 = none := by
  have hc : ¬ (0 ≤ (0 : Int) ∧ (0 : Int) ≤ 4 ∧ (4 : Int) ≤ len input + len spare) := by
    unfold len
    omega
  unfold sliceCap
  rw [if_neg hc]

/-- The wallet dispatcher on a payload whose capacity holds a selector, with the lookup
exposed. -/
theorem wallet_Run_cap (lib : Library) (hdwu : hdWalletUtils) (input spare : List Byte)
    (h : 4 ≤ input.length + spare.length) :
    hdwu.Run lib input spare =
      match hdwu.functions ((input ++ spare).take 4) with
      | none => .error .errHDWalletUtilInvalidInputData
      | some precompiled => precompiled.Run lib input := by
  simp only [hdWalletUtils.Run, hdWalletUtils.getFunction, selector_slice_cap input spare h,
    Option.bind_eq_bind, Option.some_bind, Option.pure_def, walletOrFault_some]

theorem wallet_RequiredGas_cap (hdwu : hdWalletUtils) (input spare : List Byte)
    (h : 4 ≤ input.length + spare.length) :
    hdwu.RequiredGas input spare =
      some (match hdwu.functions ((input ++ spare).take 4) with
        | none => 0
        | some precompiled => precompiled.RequiredGas input) := by
  simp only [hdWalletUtils.RequiredGas, hdWalletUtils.getFunction,
    selector_slice_cap input spare h, Option.bind_eq_bind, Option.some_bind, Option.pure_def]
  cases hdwu.functions ((input ++ spare).take 4) <;> rfl

/-- The wallet dispatcher on a payload that holds a selector, with the lookup exposed. -/
theorem wallet_Run_eq (lib : Library) (hdwu : hdWalletUtils) (input spare : List Byte)
    (h : 4 ≤ input.length) :
    hdwu.Run lib input spare =
      match hdwu.functions (input.take 4) with
      | none => .error .errHDWalletUtilInvalidInputData
      | some precompiled => precompiled.Run lib input := by
  rw [wallet_Run_cap lib hdwu input spare (by omega), List.take_append_of_le_length h]

theorem wallet_RequiredGas_eq (hdwu : hdWalletUtils) (input spare : List Byte)
    (h : 4 ≤ input.length) :
    hdwu.RequiredGas input spare =
      some (match hdwu.functions (input.take 4) with
        | none => 0
        | some precompiled => precompiled.RequiredGas input) := by
  rw [wallet_RequiredGas_cap hdwu input spare (by omega), List.take_append_of_le_length h]

/-! ## The decoder on an input of two words -/

theorem beValue_foldl (l : List Byte) (acc : Nat) :
    l.foldl (fun acc b => acc * 256 + b.val) acc = acc * 256 ^ l.length + beValue l := by
  induction l generalizing acc with
  | nil => simp [beValue]
  | cons x xs ih =>
    have h1 := ih (acc * 256 + x.val)
    have h2 := ih (0 * 256 + x.val)
    simp only [List.foldl_cons, List.length_cons, beValue] at h1 h2 ⊢
    rw [h1, h2, pow_succ]
    ring

theorem beValue_append (xs ys : List Byte) :
    beValue (xs ++ ys) = beValue xs * 256 ^ ys.length + beValue ys := by
  unfold beValue
  rw [List.foldl_append, beValue_foldl]
  rfl

theorem beValue_lt (l : List Byte) : beValue l < 256 ^ l.length := by
  induction l with
  | nil => simp [beValue]
  | cons x xs ih =>
    have h := beValue_append [x] xs
    have hx : beValue [x] = x.val := by simp [beValue]
    rw [List.singleton_append, hx] at h
    rw [h, List.length_cons, pow_succ]
    have hlt := x.isLt
    nlinarith

/-- The low part of a big-endian value: dropping the first `k` bytes reduces the value
modulo `256 ^ (length - k)`. -/
theorem beValue_drop (l : List Byte) (k : Nat) :
    beValue (l.drop k) = beValue l % 256 ^ (l.length - k) := by
  have h := beValue_append (l.take k) (l.drop k)
  rw [List.take_append_drop, List.length_drop] at h
  have hlt := beValue_lt (l.drop k)
  rw [List.length_drop] at hlt
  rw [h, Nat.mul_add_mod_of_lt hlt]

/-- The 32-byte window that starts `o ≤ 32` bytes into a 64-byte input: the low `32 - o`
bytes of the first word followed by the first `o` bytes of the second word. -/
theorem window_value (data : List Byte) (h64 : data.length = 64) (o : Nat) (ho : o ≤ 32) :
    beValue ((data.drop o).take 32) =
      beValue (data.take 32) % 256 ^ (32 - o) * 256 ^ o + beValue ((data.drop 32).take o) := by
  have hA : (data.take 32).length = 32 := by rw [List.length_take]; omega
  have hB : (data.drop 32).length = 32 := by rw [List.length_drop]; omega
  have hsplit : (data.drop o).take 32 = (data.take 32).drop o ++ (data.drop 32).take o := by
    conv_lhs => rw [← List.take_append_drop 32 data]
    rw [List.drop_append_of_le_length (by omega), List.take_append_eq_append_take,
      List.length_drop, hA]
    have e1 : 32 - (32 - o) = o := by omega
    rw [e1, List.take_of_length_le (by rw [List.length_drop, hA]; omega)]
  have hlen : ((data.drop 32).take o).length = o := by
    rw [List.length_take, hB]
    omega
  rw [hsplit, beValue_append, hlen, beValue_drop, hA]

/-- On an input of 64 bytes, the two head words of `(bytes, int256)`, the length found by
`lengthPrefixPointsTo` for the first argument is 0: an offset from 1 to 31 would put the low
byte of the offset word inside the length word, making the length at least 256. -/
theorem lengthPrefix_of_64 (data : List Byte) (h64 : data.length = 64) (start length : Nat)
    (h : lengthPrefixPointsTo 0 data = some (start, length)) : length = 0 := by
  unfold lengthPrefixPointsTo at h
  simp only [List.drop_zero, h64, Nat.add_sub_cancel] at h
  split at h
  · cases h
  · rename_i h1
    split at h
    · cases h
    · split at h
      · cases h
      · rename_i h3
        split at h
        · cases h
        · rename_i h4
          have hL : beValue ((data.drop (beValue (data.take 32))).take 32) = length := by
            have := Option.some.inj h
            exact (Prod.mk.inj this).2
          have ho : beValue (data.take 32) ≤ 32 := by omega
          have hw := window_value data h64 _ ho
          rw [hL] at hw h4
          generalize beValue (data.take 32) = o at *
          by_cases h0 : o = 0
          · subst h0
            simpa [beValue] using hw
          · generalize beValue ((data.drop 32).take o) = z at *
            by_cases h32 : o = 32
            · omega
            · have hp1 : 256 ^ 1 ≤ 256 ^ (32 - o) :=
                Nat.pow_le_pow_right (by decide) (by omega)
              have hp2 : 256 ^ 1 ≤ 256 ^ o := Nat.pow_le_pow_right (by decide) (by omega)
              have hmod : o % 256 ^ (32 - o) = o := Nat.mod_eq_of_lt (by omega)
              rw [hmod] at hw
              have hge : 256 ^ o ≤ o * 256 ^ o := Nat.le_mul_of_pos_left _ (by omega)
              omega

/-- The decoder `abiUnpack` on a 64-byte input: when it succeeds it returns two values, an
empty `[]byte` and a `*big.Int`. -/
theorem abiUnpack_of_64 (data : List Byte) (args : List GoValue) (h64 : data.length = 64)
    (h : abiUnpack [.bytes, .int256] data = some args) :
    ∃ v, args = [.bytes [], .bigIntPtr v] := by
  unfold abiUnpack at h
  rw [if_pos rfl, if_neg (by omega)] at h
  cases hb : toGoTypeBytes 0 data with
  | none =>
    rw [hb] at h
    cases h
  | some hash =>
    rw [hb] at h
    unfold toGoTypeInt256 at h
    rw [if_neg (by omega)] at h
    unfold toGoTypeBytes at hb
    rw [if_neg (by omega)] at hb
    cases hp : lengthPrefixPointsTo 0 data with
    | none =>
      rw [hp] at hb
      cases hb
    | some p =>
      obtain ⟨start, length⟩ := p
      rw [hp] at hb
      have hz := lengthPrefix_of_64 data h64 start length hp
      subst hz
      have hh : hash = .bytes [] := by
        have := Option.some.inj hb
        rw [← this, List.take_zero]
      subst hh
      exact ⟨_, (Option.some.inj h).symm⟩

/-! ## The handler `base58Check` -/

/-- The handler never returns a string, whatever the library: a value that passes the test
`args[1].(*big.Int)` fails the assertion `args[1].(big.Int)` that follows it. -/
theorem base58Check_no_result (lib : Library) (method : Method) (input : List Byte)
    (r : List Byte) : base58Check.Run lib method input ≠ .result r := by
  intro hr
  unfold base58Check.Run at hr
  split at hr
  · cases hr
  · split at hr
    · cases hr
    · obtain ⟨arg0, _, hr⟩ := walletOrFault_eq_result _ _ _ hr
      split at hr
      · cases hr
      · obtain ⟨h, _, hr⟩ := walletOrFault_eq_result _ _ _ hr
        split at hr
        · cases hr
        · obtain ⟨arg1, _, hr⟩ := walletOrFault_eq_result _ _ _ hr
          split at hr
          · cases hr
          · rename_i hptr
            have hp : isBigIntPtr arg1 = true := by simpa using hptr
            obtain ⟨version, hver, _⟩ := walletOrFault_eq_result _ _ _ hr
            rw [assertBigInt_of_ptr arg1 hp] at hver
            cases hver

/-- With a decoder that yields an empty `[]byte` from two words, the handler of
`(bytes, int256)` answers every input with the error: a length other than 64 at the first
guard, a decoding error at the second, and an empty hash at `len(hash) != 20`. -/
theorem base58Check_Run_error (lib : Library) (method : Method) (input : List Byte)
    (hm : method.inputs = [.bytes, .int256])
    (hlib : ∀ (data : List Byte) (args : List GoValue), data.length = 64 →
      lib.Unpack [.bytes, .int256] data = some args → ∃ v, args = [.bytes [], .bigIntPtr v]) :
    base58Check.Run lib method input = .error .errHDWalletUtilInvalidInputData := by
  unfold base58Check.Run
  by_cases hlen : input.length = 64
  · rw [if_neg (by omega), hm]
    cases hu : lib.Unpack [.bytes, .int256] input with
    | none => rfl
    | some args =>
      obtain ⟨v, rfl⟩ := hlib input args hlen hu
      simp [walletOrFault, isBytes, assertBytes]
  · rw [if_pos hlen]

/-- The input `zeroHashCall` is 128 bytes long and carries the 20-byte zero hash and the
version 0: that is what the decoder makes of it, and their Base58Check string is
`zeroAddress`. -/
theorem zeroHashCall_decodes :
    zeroHashCall.length = 128 ∧
    abiUnpack [.bytes, .int256] zeroHashCall =
      some [.bytes (List.replicate 20 0), .bigIntPtr 0] ∧
    abiLibrary.CheckEncode (List.replicate 20 0) 0 = zeroAddress := by
  decide

/-- The 64-byte input of two zero words decodes to an empty hash and version 0 and is
refused at `len(hash) != 20`. -/
theorem base58Check_on_two_words :
    abiUnpack [.bytes, .int256] (List.replicate 64 0) = some [.bytes [], .bigIntPtr 0] ∧
    base58Check.Run abiLibrary base58CheckMethod (List.replicate 64 0) =
      .error .errHDWalletUtilInvalidInputData := by
  decide

/-- C15: for every payload of at least 4 bytes whose first four bytes are not a key of the
wallet dispatch table, `hdWalletUtils.Run` returns `nil` with the error "invalid input data"
and runs no handler; for every payload whose selector is registered it returns exactly what
that handler's `Run` returns on the whole payload, selector included. -/
theorem wallet_Run_dispatch (lib : Library) (hdwu : hdWalletUtils) (input spare : List Byte)
    (hlen : 4 ≤ input.length) :
    (hdwu.functions (input.take 4) = none →
      hdwu.Run lib input spare = .error .errHDWalletUtilInvalidInputData) ∧
    WalletError.message .errHDWalletUtilInvalidInputData = "invalid input data" ∧
    (∀ precompiled, hdwu.functions (input.take 4) = some precompiled →
      hdwu.Run lib input spare = precompiled.Run lib input) := by
  refine ⟨fun hnone => ?_, rfl, fun precompiled hsome => ?_⟩
  · rw [wallet_Run_eq lib hdwu input spare hlen, hnone]
  · rw [wallet_Run_eq lib hdwu input spare hlen, hsome]

theorem wallet_Run_dispatch_witness :
    (newHDWalletUtils walletSelectorOf).Run abiLibrary [1, 2, 3, 4, 5] [] =
      .error .errHDWalletUtilInvalidInputData :=
  (wallet_Run_dispatch abiLibrary (newHDWalletUtils walletSelectorOf) [1, 2, 3, 4, 5] []
    (by decide)).1 (by decide)

/-- C16: for every payload of at least 4 bytes, `hdWalletUtils.RequiredGas` returns 0 when the
selector matches no handler and otherwise the matched handler's own constant, whatever the
rest of the payload is: 13000 for `base58Check`, 107000 for `deriveExtendedPublicKey`, 11300
for `extractPublicKeyFromExtendedPublicKey` and 0 for `getMultisigScriptHash`. -/
theorem wallet_RequiredGas_dispatch (hdwu : hdWalletUtils) (input spare : List Byte)
    (hlen : 4 ≤ input.length) :
    (hdwu.functions (input.take 4) = none → hdwu.RequiredGas input spare = some 0) ∧
    (∀ m, hdwu.functions (input.take 4) = some (.base58Check m) →
      hdwu.RequiredGas input spare = some 13000) ∧
    (∀ m, hdwu.functions (input.take 4) = some (.deriveExtendedPublicKey m) →
      hdwu.RequiredGas input spare = some 107000) ∧
    (∀ m, hdwu.functions (input.take 4) = some (.extractPublicKeyFromExtendedPublicKey m) →
      hdwu.RequiredGas input spare = some 11300) ∧
    (∀ m, hdwu.functions (input.take 4) = some (.getMultisigScriptHash m) →
      hdwu.RequiredGas input spare = some 0) := by
  have hg := wallet_RequiredGas_eq hdwu input spare hlen
  refine ⟨fun h => ?_, fun m h => ?_, fun m h => ?_, fun m h => ?_, fun m h => ?_⟩ <;>
    rw [hg, h] <;> rfl

theorem wallet_RequiredGas_dispatch_witness :
    (newHDWalletUtils walletSelectorOf).RequiredGas
        ([171, 101, 221, 183] ++ List.replicate 7 9) [] = some 107000 :=
  (wallet_RequiredGas_dispatch (newHDWalletUtils walletSelectorOf)
    ([171, 101, 221, 183] ++ List.replicate 7 9) [] (by decide)).2.2.1
    (NewMethod walletSelectorOf "deriveExtendedPublicKey" [.string, .string] [.string])
    (by decide)

/-- Under the selector of one of the three stubs the table of `newHDWalletUtils` holds a
stub: an entry written later in the map literal can replace it only by another stub. -/
theorem newHDWalletUtils_stub (idOf : String → List AbiType → List Byte) (key : List Byte)
    (hkey : key = signatureFromID (idOf "deriveExtendedPublicKey" [.string, .string]) ∨
      key = signatureFromID (idOf "extractPublicKeyFromExtendedPublicKey" [.string]) ∨
      key = signatureFromID (idOf "getMultisigScriptHash" [.int256, .bytesArr])) :
    ∃ precompiled, (newHDWalletUtils idOf).functions key = some precompiled ∧
      ∀ (lib : Library) (input : List Byte), precompiled.Run lib input = .nothing := by
  simp only [newHDWalletUtils, WalletMap.set, NewMethod]
  by_cases h4 : key = signatureFromID (idOf "getMultisigScriptHash" [.int256, .bytesArr])
  · rw [if_pos h4]
    exact ⟨_, rfl, fun _ _ => rfl⟩
  · rw [if_neg h4]
    by_cases h3 : key = signatureFromID (idOf "extractPublicKeyFromExtendedPublicKey" [.string])
    · rw [if_pos h3]
      exact ⟨_, rfl, fun _ _ => rfl⟩
    · rw [if_neg h3]
      have h2 : key = signatureFromID (idOf "deriveExtendedPublicKey" [.string, .string]) := by
        rcases hkey with h | h | h
        · exact h
        · exact absurd h h3
        · exact absurd h h4
      rw [if_pos h2]
      exact ⟨_, rfl, fun _ _ => rfl⟩

/-- C17: for every payload whose selector is that of `deriveExtendedPublicKey`,
`extractPublicKeyFromExtendedPublicKey` or `getMultisigScriptHash`, `hdWalletUtils.Run`
returns no result and no error (`nil, nil`), whatever the argument bytes are. -/
theorem wallet_stubs_inert (lib : Library) (idOf : String → List AbiType → List Byte)
    (input spare : List Byte) (hlen : 4 ≤ input.length)
    (hsel : input.take 4 = signatureFromID (idOf "deriveExtendedPublicKey" [.string, .string]) ∨
      input.take 4 =
        signatureFromID (idOf "extractPublicKeyFromExtendedPublicKey" [.string]) ∨
      input.take 4 = signatureFromID (idOf "getMultisigScriptHash" [.int256, .bytesArr])) :
    (newHDWalletUtils idOf).Run lib input spare = .nothing := by
  obtain ⟨precompiled, hf, hrun⟩ := newHDWalletUtils_stub idOf (input.take 4) hsel
  rw [wallet_Run_eq lib _ input spare hlen, hf]
  exact hrun lib input

theorem wallet_stubs_inert_witness :
    (newHDWalletUtils walletSelectorOf).Run abiLibrary
        ([129, 90, 79, 144] ++ List.replicate 40 7) [] = .nothing :=
  wallet_stubs_inert abiLibrary walletSelectorOf ([129, 90, 79, 144] ++ List.replicate 40 7) []
    (by decide) (by decide)

/-! ## The index argument of `uncleCoinbaseAddress` -/

/-- The handler reads its argument through `binary.LittleEndian.Uint64` only: two arguments
with the same first 8 bytes give the same outcome. -/
theorem uncle_run_congr (method : Method) (header : Header) (a b : List Byte)
    (ha : 8 ≤ a.length) (hb : 8 ≤ b.length) (hab : a.take 8 = b.take 8) :
    uncleCoinbaseAddress.run method header [a] = uncleCoinbaseAddress.run method header [b] := by
  have hga : uncleGuard [a] = some false := by simp [uncleGuard]
  have hgb : uncleGuard [b] = some false := by simp [uncleGuard]
  have h0a : ([a] : List (List Byte))[0]? = some a := rfl
  have h0b : ([b] : List (List Byte))[0]? = some b := rfl
  have hua : leUint64 a = some (leValue (a.take 8)) := by
    unfold leUint64
    rw [if_neg (by omega)]
  have hub : leUint64 b = some (leValue (a.take 8)) := by
    unfold leUint64
    rw [if_neg (by omega), hab]
  unfold uncleCoinbaseAddress.run
  rw [hga, hgb, orFault_some, orFault_some, if_neg (by decide), if_neg (by decide), h0a, h0b,
    orFault_some, orFault_some, hua, hub]

/-- C18: the index of the `uncleCoinbaseAddress` handler is the little-endian uint64 value
of bytes 0..8 of its argument, reinterpreted as a signed 64-bit integer, and bytes 8..32 are
ignored: two 32-byte arguments with the same first 8 bytes give the same outcome, and two
68-byte payloads that agree on bytes 0..44 give the same result of `blockHeader.Run` under
the selector of the handler; an argument whose first 8 bytes are zero acts as index 0. -/
theorem uncle_index_decoding (bh : blockHeader) (method : Method) (input input2 : List Byte)
    (hlen : input.length = 68) (hlen2 : input2.length = 68)
    (hsame : input.take 44 = input2.take 44)
    (hsel : bh.functions (input.take 4) = some (.uncleCoinbaseAddress method)) :
    bh.Run input = bh.Run input2 ∧
    leUint64 (input.drop 36) = some (leValue ((input.drop 36).take 8)) ∧
    (∀ header : Header,
      uncleCoinbaseAddress.run method header [input.drop 36] =
        uncleCoinbaseAddress.run method header [input2.drop 36]) ∧
    (∀ header : Header, leValue ((input.drop 36).take 8) = 0 →
      uncleCoinbaseAddress.run method header [input.drop 36] =
        uncleCoinbaseAddress.run method header [indexArgument 0]) ∧
    (∀ (header : Header) (c : Int), getUncleCoinbaseAddressSize header.extra = some c →
      uncleCoinbaseAddress.run method header [input.drop 36] =
        if toInt (leValue ((input.drop 36).take 8)) < 0 ∨
            toInt (leValue ((input.drop 36).take 8)) > c then
          .error .errBlockHeaderInvalidInput
        else
          orFault (slice header.extra
            (sub64 (sub64 (len header.extra)
              (mul64 (toInt (leValue ((input.drop 36).take 8))) 32)) 41)
            (sub64 (sub64 (len header.extra)
              (mul64 (toInt (leValue ((input.drop 36).take 8))) 32)) 1)) fun v =>
          .pack method.outputs v) := by
  have hl : (input.drop 36).length = 32 := by rw [List.length_drop]; omega
  have hl2 : (input2.drop 36).length = 32 := by rw [List.length_drop]; omega
  have t4 : input.take 4 = input2.take 4 := by
    have := congrArg (List.take 4) hsame
    simpa [List.take_take] using this
  have t36 : (input.drop 4).take 32 = (input2.drop 4).take 32 := by
    have := congrArg (fun l => (List.drop 4 l).take 32) hsame
    simpa [List.drop_take, List.take_take] using this
  have t8 : (input.drop 36).take 8 = (input2.drop 36).take 8 := by
    have := congrArg (fun l => (List.drop 36 l).take 8) hsame
    simpa [List.drop_take, List.take_take] using this
  have hcongr : ∀ header : Header,
      uncleCoinbaseAddress.run method header [input.drop 36] =
        uncleCoinbaseAddress.run method header [input2.drop 36] :=
    fun header => uncle_run_congr method header _ _ (by omega) (by omega) t8
  refine ⟨?_, ?_, hcongr, ?_, ?_⟩
  · have hsel2 : bh.functions (input2.take 4) = some (.uncleCoinbaseAddress method) := by
      rw [← t4]
      exact hsel
    rw [Run_accepted bh input (Or.inr hlen), Run_accepted bh input2 (Or.inr hlen2), hsel, hsel2,
      ← t36]
    simp only []
    split
    · rfl
    · split
      · rfl
      · exact hcongr _
  · unfold leUint64
    rw [if_neg (by omega)]
  · intro header hz
    apply uncle_run_congr method header _ _ (by omega) (by decide)
    have h8 : ((input.drop 36).take 8).length = 8 := by
      rw [List.length_take]
      omega
    have hall := leValue_eq_zero _ hz
    have : (input.drop 36).take 8 = List.replicate 8 0 := by
      rw [List.eq_replicate_iff]
      exact ⟨h8, hall⟩
    rw [this]
    decide
  · intro header c hc
    exact uncle_run_eq method header _ c (by omega) hc

theorem uncle_index_decoding_witness :
    (newBlockHeader selectorOf (chainWithBlock5 (headerWithExtra trailerCount2))).Run
        (payloadOf [171, 205, 137, 132] 5 (indexArgument 1)) =
      (newBlockHeader selectorOf (chainWithBlock5 (headerWithExtra trailerCount2))).Run
        (payloadOf [171, 205, 137, 132] 5 (leBytes 8 1 ++ List.replicate 24 255)) :=
  (uncle_index_decoding
    (newBlockHeader selectorOf (chainWithBlock5 (headerWithExtra trailerCount2)))
    (NewMethod selectorOf "getUncleCoinbaseAddress" [.int256, .int256] [.bytes])
    (payloadOf [171, 205, 137, 132] 5 (indexArgument 1))
    (payloadOf [171, 205, 137, 132] 5 (leBytes 8 1 ++ List.replicate 24 255))
    (by decide) (by decide) (by decide) (by decide)).1

/-! ## The tags and their size field -/

/-- An in-range window `[X-9, X-1)` computed in 64-bit arithmetic is 8 wide. -/
theorem window_width (X lf hi : Int) (hlf : lf = sub64 X 9) (hhi : hi = sub64 X 1)
    (b0 : 0 ≤ lf) (h8 : 8 ≤ hi - lf) : hi - lf = 8 := by
  unfold sub64 wrapInt at hlf hhi
  omega

/-- An in-range window that ends at `L - size - 1` and starts `s` bytes earlier, all in
64-bit arithmetic, is exactly `s` wide. -/
theorem tags_width (L s size lt hi : Int) (hs1 : -(2 ^ 63) ≤ s) (hs2 : s < 2 ^ 63)
    (hlt : lt = sub64 (sub64 (sub64 L s) size) 1) (hhi : hi = sub64 (sub64 L size) 1)
    (b0 : 0 ≤ lt) (b1 : lt ≤ hi) : hi - lt = s := by
  unfold sub64 wrapInt at hlt hhi
  omega

/-- The last 8 elements of a window of `n ≥ 8` elements are the window of 8 elements that
starts `n - 8` later. -/
theorem drop_window (data : List Byte) (a n : Nat) (hn : 8 ≤ n) (hfit : a + n ≤ data.length) :
    (((data.drop a).take n).drop (((data.drop a).take n).length - 8)) =
      (data.drop (a + n - 8)).take 8 := by
  have hl : ((data.drop a).take n).length = n := by
    rw [List.length_take, List.length_drop]
    omega
  have e2 : n - (n - 8) = 8 := by omega
  have e3 : a + (n - 8) = a + n - 8 := by omega
  rw [hl, List.drop_take, List.drop_drop, e2, e3]

/-- What `getMergedMiningTagsSize` returns is read from an 8-byte slice. -/
theorem getMergedMiningTagsSize_some (data : List Byte) (size s : Int)
    (hsz : getMinGasPriceSizeTotal data = some size)
    (hs : getMergedMiningTagsSize data = some s) :
    ∃ w, slice data (sub64 (sub64 (len data) size) 9) (sub64 (sub64 (len data) size) 1) = some w ∧
      8 ≤ w.length ∧ s = toInt (leValue (w.take 8)) := by
  simp only [getMergedMiningTagsSize, hsz, Option.bind_eq_bind, Option.some_bind,
    Option.pure_def] at hs
  cases hw : slice data (sub64 (sub64 (len data) size) 9) (sub64 (sub64 (len data) size) 1) with
  | none =>
    rw [hw] at hs
    cases hs
  | some w =>
    rw [hw, Option.some_bind] at hs
    unfold leUint64 at hs
    by_cases hlen : w.length < 8
    · rw [if_pos hlen] at hs
      cases hs
    · rw [if_neg hlen, Option.some_bind] at hs
      exact ⟨w, rfl, by omega, (Option.some.inj hs).symm⟩

/-- C19: for every extension buffer on which the slice of the `mergedMiningTags` handler is in
range, the tags it packs have exactly the decoded length `s`; when `s ≥ 8` their last 8 bytes
are the bytes `E[L-size-9 : L-size-1]` from which `s` was read, with
`size = getMinGasPriceSizeTotal(E)`, so they are the little-endian encoding of `s` itself. -/
theorem tags_end_with_size_field (method : Method) (header : Header) (args : List (List Byte))
    (outs : List AbiType) (v : List Byte)
    (hv : mergedMiningTags.run method header args = .pack outs v) :
    getMergedMiningTagsSize header.extra = some (v.length : Int) ∧
    (8 ≤ v.length → ∃ size, getMinGasPriceSizeTotal header.extra = some size ∧
      slice header.extra (sub64 (sub64 (len header.extra) size) 9)
        (sub64 (sub64 (len header.extra) size) 1) = some (v.drop (v.length - 8)) ∧
      toInt (leValue (v.drop (v.length - 8))) = (v.length : Int)) := by
  unfold mergedMiningTags.run at hv
  cases hs : getMergedMiningTagsSize header.extra with
  | none =>
    rw [hs, orFault_none] at hv
    cases hv
  | some s =>
  cases hsz : getMinGasPriceSizeTotal header.extra with
  | none =>
    rw [hs, hsz, orFault_some, orFault_none] at hv
    cases hv
  | some size =>
  rw [hs, hsz, orFault_some, orFault_some] at hv
  obtain ⟨w, hw, hwlen, hsu⟩ := getMergedMiningTagsSize_some header.extra size s hsz hs
  cases ht : slice header.extra
      (sub64 (sub64 (sub64 (len header.extra) s) size) 1)
      (sub64 (sub64 (len header.extra) size) 1) with
  | none =>
    rw [ht, orFault_none] at hv
    cases hv
  | some t =>
  rw [ht, orFault_some] at hv
  have htv : t = v := by
    injection hv
  subst htv
  have hrange := wrapInt_range ((leValue (w.take 8) : Nat) : Int)
  have hs1 : -(2 ^ 63) ≤ s := by rw [hsu]; exact hrange.1
  have hs2 : s < 2 ^ 63 := by rw [hsu]; exact hrange.2
  -- name the three bounds of the two slices
  obtain ⟨lt, hlt⟩ : ∃ lt, lt = sub64 (sub64 (sub64 (len header.extra) s) size) 1 := ⟨_, rfl⟩
  obtain ⟨lf, hlf⟩ : ∃ lf, lf = sub64 (sub64 (len header.extra) size) 9 := ⟨_, rfl⟩
  obtain ⟨hi, hhi⟩ : ∃ hi, hi = sub64 (sub64 (len header.extra) size) 1 := ⟨_, rfl⟩
  have hw2 : slice header.extra lf hi = some w := by rw [hlf, hhi]; exact hw
  have ht2 : slice header.extra lt hi = some t := by rw [hlt, hhi]; exact ht
  obtain ⟨f0, _, f2, hwe⟩ := slice_eq_some _ _ _ _ hw2
  obtain ⟨t0, t1, t2, hte⟩ := slice_eq_some _ _ _ _ ht2
  clear ht hv hs hsz hrange hw2 ht2
  have es : hi - lt = s := tags_width _ s size lt hi hs1 hs2 hlt hhi t0 t1
  have hL : hi ≤ (header.extra.length : Int) := f2
  have hwl : w.length = min (hi - lf).toNat (header.extra.length - lf.toNat) := by
    rw [hwe, List.length_take, List.length_drop]
  have h8 : 8 ≤ hi - lf := by
    clear hlt hlf hhi hte hwe hsu es
    omega
  have e8 : hi - lf = 8 := window_width _ lf hi hlf hhi f0 h8
  unfold len at hL t2 f2
  clear hlt hlf hhi
  have e8n : (hi - lf).toNat = 8 := by omega
  have hn : (hi - lt).toNat = s.toNat := by rw [es]
  have htl : t.length = s.toNat := by
    rw [hte, List.length_take, List.length_drop, hn]
    omega
  have hlen : (t.length : Int) = s := by omega
  have hw8 : w.take 8 = w := by
    apply List.take_of_length_le
    rw [hwl]
    omega
  rw [hw8] at hsu
  refine ⟨by rw [hlen], fun h8t => ?_⟩
  have hlast : t.drop (t.length - 8) = w := by
    have hd := drop_window header.extra lt.toNat (hi - lt).toNat (by omega) (by omega)
    rw [← hte] at hd
    rw [hd, hwe, e8n]
    have e3 : lt.toNat + (hi - lt).toNat - 8 = lf.toNat := by omega
    rw [e3]
  refine ⟨size, rfl, ?_, ?_⟩
  · rw [hlast]
    exact hw
  · rw [hlast, hlen]
    exact hsu.symm

theorem tags_end_with_size_field_witness :
    getMergedMiningTagsSize (headerWithExtra trailerTags10).extra =
      some (([97, 98, 10, 0, 0, 0, 0, 0, 0, 0] : List Byte).length : Int) :=
  (tags_end_with_size_field
    (NewMethod selectorOf "getMergedMiningTags" [.int256] [.string])
    (headerWithExtra trailerTags10) [[]] [.string] [97, 98, 10, 0, 0, 0, 0, 0, 0, 0]
    (by decide)).1

/-! ## Payloads too short to hold a selector -/

/-- Every entry of the table of `newHDWalletUtils` is one of the three stubs or the handler
`base58Check` with the method of `toBase58Check`. -/
theorem newHDWalletUtils_entries (idOf : String → List AbiType → List Byte) (key : List Byte)
    (precompiled : PrecompiledContract)
    (h : (newHDWalletUtils idOf).functions key = some precompiled) :
    (∀ (lib : Library) (input : List Byte), precompiled.Run lib input = .nothing) ∨
    ∃ m, precompiled = .base58Check m ∧ m.inputs = [.bytes, .int256] := by
  simp only [newHDWalletUtils, WalletMap.set, NewMethod, WalletMap.empty] at h
  split at h
  · cases h
    exact Or.inl fun _ _ => rfl
  · split at h
    · cases h
      exact Or.inl fun _ _ => rfl
    · split at h
      · cases h
        exact Or.inl fun _ _ => rfl
      · split at h
        · cases h
          exact Or.inr ⟨_, rfl, rfl⟩
        · cases h

/-- C20, counterexample: on the empty payload without spare capacity reading the selector
`input[:4]` is out of range: `hdWalletUtils.RequiredGas` returns no value and
`hdWalletUtils.Run` returns neither a result nor an error. -/
theorem wallet_faults_on_empty :
    (newHDWalletUtils walletSelectorOf).RequiredGas [] [] = none ∧
    (newHDWalletUtils walletSelectorOf).Run abiLibrary [] [] = .fault := by
  decide

/-- C20, amended: the wallet dispatcher checks no length, so the read `input[:4]` is bounded
by the capacity of the payload. For every payload whose capacity is at least 4, every
payload of at least 4 bytes in particular, the read is in range, `RequiredGas` returns a
value and `Run` returns without a fault, either `nil` with "invalid input data" or
`nil, nil`; a payload shorter than 4 bytes with such a capacity is not treated as matching
no handler: its selector is completed from the bytes of the backing array beyond its length.
For every payload whose capacity is below 4, the empty payload without capacity included, the
read is out of range and both `RequiredGas` and `Run` fault. -/
theorem wallet_selector_capacity (lib : Library) (idOf : String → List AbiType → List Byte)
    (input spare : List Byte)
    (hlib : ∀ (data : List Byte) (args : List GoValue), data.length = 64 →
      lib.Unpack [.bytes, .int256] data = some args → ∃ v, args = [.bytes [], .bigIntPtr v]) :
    (input.length + spare.length < 4 →
      (newHDWalletUtils idOf).getFunction input spare = none ∧
      (newHDWalletUtils idOf).RequiredGas input spare = none ∧
      (newHDWalletUtils idOf).Run lib input spare = .fault) ∧
    (4 ≤ input.length + spare.length →
      (newHDWalletUtils idOf).getFunction input spare =
        some ((newHDWalletUtils idOf).functions ((input ++ spare).take 4)) ∧
      (∃ gas, (newHDWalletUtils idOf).RequiredGas input spare = some gas) ∧
      ((newHDWalletUtils idOf).functions ((input ++ spare).take 4) = none →
        (newHDWalletUtils idOf).Run lib input spare = .error .errHDWalletUtilInvalidInputData) ∧
      ((newHDWalletUtils idOf).Run lib input spare = .error .errHDWalletUtilInvalidInputData ∨
        (newHDWalletUtils idOf).Run lib input spare = .nothing)) := by
  constructor
  · intro h
    have hg : (newHDWalletUtils idOf).getFunction input spare = none := by
      simp only [hdWalletUtils.getFunction, selector_slice_short input spare h,
        Option.bind_eq_bind, Option.none_bind]
    refine ⟨hg, ?_, ?_⟩
    · simp only [hdWalletUtils.RequiredGas, hg]
    · simp only [hdWalletUtils.Run, hg, walletOrFault_none]
  · intro h
    have hrun := wallet_Run_cap lib (newHDWalletUtils idOf) input spare h
    refine ⟨?_, ⟨_, wallet_RequiredGas_cap _ input spare h⟩, fun hnone => ?_, ?_⟩
    · simp only [hdWalletUtils.getFunction, selector_slice_cap input spare h,
        Option.bind_eq_bind, Option.some_bind, Option.pure_def]
    · rw [hrun, hnone]
    · cases hf : (newHDWalletUtils idOf).functions ((input ++ spare).take 4) with
      | none =>
        rw [hrun, hf]
        exact Or.inl rfl
      | some precompiled =>
        rw [hrun, hf]
        rcases newHDWalletUtils_entries idOf _ precompiled hf with hstub | ⟨m, rfl, hm⟩
        · exact Or.inr (hstub lib input)
        · exact Or.inl (base58Check_Run_error lib m input hm hlib)

theorem wallet_selector_capacity_witness :
    (newHDWalletUtils walletSelectorOf).getFunction [171, 101, 221] [183, 0, 0, 0, 0] =
        some ((newHDWalletUtils walletSelectorOf).functions
          (([171, 101, 221] ++ [183, 0, 0, 0, 0] : List Byte).take 4)) ∧
    (∃ gas, (newHDWalletUtils walletSelectorOf).RequiredGas [171, 101, 221] [183, 0, 0, 0, 0] =
      some gas) ∧
    ((newHDWalletUtils walletSelectorOf).functions
        (([171, 101, 221] ++ [183, 0, 0, 0, 0] : List Byte).take 4) = none →
      (newHDWalletUtils walletSelectorOf).Run abiLibrary [171, 101, 221] [183, 0, 0, 0, 0] =
        .error .errHDWalletUtilInvalidInputData) ∧
    ((newHDWalletUtils walletSelectorOf).Run abiLibrary [171, 101, 221] [183, 0, 0, 0, 0] =
        .error .errHDWalletUtilInvalidInputData ∨
      (newHDWalletUtils walletSelectorOf).Run abiLibrary [171, 101, 221] [183, 0, 0, 0, 0] =
        .nothing) :=
  (wallet_selector_capacity abiLibrary walletSelectorOf [171, 101, 221] [183, 0, 0, 0, 0]
    (fun data args h64 h => abiUnpack_of_64 data args h64 h)).2 (by decide)

/-- A payload of 3 bytes whose backing array continues with `b7`: the dispatcher reads the
selector of `deriveExtendedPublicKey`, prices the call at 107000 and returns `nil, nil`. -/
theorem wallet_selector_from_spare :
    (newHDWalletUtils walletSelectorOf).RequiredGas [171, 101, 221] [183, 0, 0, 0, 0] =
      some 107000 ∧
    (newHDWalletUtils walletSelectorOf).Run abiLibrary [171, 101, 221] [183, 0, 0, 0, 0] =
      .nothing := by
  decide

end Precompiles
